import Mathlib

/-!
Verification of the tile-to-road population-density assignment engine
(`src/popdensityV5.py`, the repository's current version of `get_density`).

The embedding is a shallow one over `ℚ`:

* Python floats are modelled as rationals; `math.cos(math.radians(avg_lat))`
  is irrational for the latitudes of interest, so the longitude scale factor
  computed at line 151 of the source is passed as an explicit parameter
  `cosLat` (the fast path multiplies longitudes by it, the slow fallback
  never uses it).
* Distances are kept squared: the source compares `dist > far_thresh_deg`
  with `dist = sqrt d2 ≥ 0`; `distGT d2 t` below decides exactly
  `Real.sqrt d2 > t` using only rational arithmetic (`t < 0` or `d2 > t²`).
* `scipy.spatial.cKDTree.query` and the linear scans `_find_nearest_tile` /
  `_find_nearest_road` are both modelled by `nearest`, the first-minimum
  scan (lowest index wins ties, the deterministic tie-break of the linear
  fallback; the KD-tree's tie-break is implementation defined).
* A graph node is its position in a list; `networkx` node dictionaries
  become the `NodeData` structure, and `data.get('x') or data.get('lon')
  or data.get('long')` is modelled by `pyOrQ`, including Python's
  truthiness (0.0 is falsy).
* The CSV row source is a list of `Row`s carrying both the raw column text
  (used for tile keys after `.strip()`) and the result of `float(...)`
  on each of the three fields (`none` models an unparsable field).
* Python `dict`s keyed by raw-text pairs preserve first-insertion order;
  they are modelled as association lists (`List Tile`), `addTile` being
  the combined update of `tile_pop` and `unique_csv_centers` at lines
  118-121 of the source.  The slow fallback's pass 2 iterates a Python
  `set` in unspecified order; it is modelled in tile-list order (the
  accumulated sums do not depend on the order, and no claim does either).
-/

namespace PopDensity

/- The arithmetic of `Rat` is `@[irreducible]` in Batteries, which blocks
`decide` on concrete pipeline runs; restore the default reducibility
locally so that concrete inputs evaluate. -/
attribute [local semireducible] Rat.add Rat.sub Rat.mul Rat.inv

/-- A tile key: the stripped raw text of the longitude and latitude columns. -/
abbrev Key := String × String

/-- Attribute dictionary of a road node: optional geometry centroid,
optional coordinate attributes, and the mutable `pop_density` entry
(`none` models an absent key). -/
structure NodeData where
  geometry : Option (ℚ × ℚ)
  x : Option ℚ
  lon : Option ℚ
  long : Option ℚ
  y : Option ℚ
  lat : Option ℚ
  pop_density : Option ℚ
deriving DecidableEq, Repr, Inhabited

/-- One CSV row: the raw text of the first two columns plus the parse
results of `float` on the three fields (`none` = raises). -/
structure Row where
  lonText : String
  latText : String
  lonVal : Option ℚ
  latVal : Option ℚ
  popVal : Option ℚ
deriving DecidableEq, Repr, Inhabited

/-- An aggregated population tile: key, accumulated population, and the
parsed coordinates of the first row that produced the key. -/
structure Tile where
  key : Key
  pop : ℚ
  lon : ℚ
  lat : ℚ
deriving DecidableEq, Repr, Inhabited

/-- Python's `a or b` on optional floats: `a` is falsy when it is `None`
or equal to `0.0`. -/
def pyOrQ (a b : Option ℚ) : Option ℚ :=
  match a with
  | some v => if v = 0 then b else some v
  | none => b

/-- Embeds `_center_from_node_data` (popdensityV5.py lines 52-64): the
geometry centroid when available, else the `x`/`lon`/`long` and `y`/`lat`
attribute chains combined with Python `or`. -/
def center_from_node_data (d : NodeData) : Option (ℚ × ℚ) :=
  match d.geometry with
  | some c => some c
  | none =>
    match pyOrQ d.x (pyOrQ d.lon d.long), pyOrQ d.y d.lat with
    | some xv, some yv => some (xv, yv)
    | _, _ => none

/-- The initialization loop `data['pop_density'] = 0.0` run over every
node (line 75). -/
def initNodes (g : List NodeData) : List NodeData :=
  g.map (fun d => { d with pop_density := some 0 })

/-- Collects `(node position, center)` for every node with a resolvable
center, positions counted from `p` (the loop of lines 74-79 producing
`centers` and `index_to_node`). -/
def centerEntriesAux (p : ℕ) : List NodeData → List (ℕ × (ℚ × ℚ))
  | [] => []
  | d :: ds =>
    match center_from_node_data d with
    | some c => (p, c) :: centerEntriesAux (p + 1) ds
    | none => centerEntriesAux (p + 1) ds

/-- Stage function: the `(index, center)` pairs of graph `g`. -/
def stageEntries (g : List NodeData) : List (ℕ × (ℚ × ℚ)) :=
  centerEntriesAux 0 g

/-- The `centers` list of the source. -/
def stageCenters (g : List NodeData) : List (ℚ × ℚ) :=
  (stageEntries g).map (fun pc => pc.2)

/-- The `index_to_node` list of the source. -/
def stageIndexToNode (g : List NodeData) : List ℕ :=
  (stageEntries g).map (fun pc => pc.1)

/-- Minimum of a list of rationals, seeded at the head (`min(...)` on a
nonempty Python list; junk value 0 on the empty list, which the source
guards against). -/
def listMin : List ℚ → ℚ
  | [] => 0
  | x :: xs => xs.foldl min x

/-- Maximum of a list of rationals, seeded at the head. -/
def listMax : List ℚ → ℚ
  | [] => 0
  | x :: xs => xs.foldl max x

/-- Parses the three fields of a row; `none` when any `float(...)` raises
(lines 102-107). -/
def parseRow (r : Row) : Option (ℚ × ℚ × ℚ) :=
  match r.lonVal, r.latVal, r.popVal with
  | some lo, some la, some v => some (lo, la, v)
  | _, _, _ => none

/-- Drops leading and trailing whitespace from a character list. -/
def stripChars (l : List Char) : List Char :=
  ((l.dropWhile Char.isWhitespace).reverse.dropWhile Char.isWhitespace).reverse

/-- Python's `str.strip()` (structural model; `String.trim` is equivalent
but is not kernel-reducible). -/
def pyStrip (s : String) : String :=
  ⟨stripChars s.data⟩

/-- The stripped raw-text key of a row (line 118). -/
def rowKey (r : Row) : Key :=
  (pyStrip r.lonText, pyStrip r.latText)

/-- The combined dictionary update of lines 119-121:
`tile_pop[key] = tile_pop.get(key, 0.0) + val` and, on first occurrence
only, `unique_csv_centers[key] = (lon, lat)`. -/
def addTile (acc : List Tile) (k : Key) (v : ℚ) (c : ℚ × ℚ) : List Tile :=
  match acc with
  | [] => [⟨k, v, c.1, c.2⟩]
  | t :: ts => if t.key = k then { t with pop := t.pop + v } :: ts else t :: addTile ts k v c

/-- The CSV reading loop of lines 99-121: parse each row, drop rows
outside the padded bounding box, break early when `assume_sorted_by_lat`
and the latitude has passed the north bound after at least one in-range
row, and aggregate retained rows by raw key. -/
def filterRowsAux (west east south north : ℚ) (sorted : Bool) :
    List Row → Bool → List Tile → List Tile
  | [], _, acc => acc
  | r :: rs, seen, acc =>
    match parseRow r with
    | none => filterRowsAux west east south north sorted rs seen acc
    | some (lo, la, v) =>
      if lo < west ∨ lo > east ∨ la < south ∨ la > north then
        if sorted = true ∧ la > north ∧ seen = true then acc
        else filterRowsAux west east south north sorted rs seen acc
      else
        filterRowsAux west east south north sorted rs true (addTile acc (rowKey r) v (lo, la))

/-- The tile mapping read from the row source inside the padded box. -/
def filterRows (west east south north : ℚ) (sorted : Bool) (rows : List Row) : List Tile :=
  filterRowsAux west east south north sorted rows false []

/-- Stage function: the tiles the pipeline builds for graph `g` and source
`rows` (bounding box of lines 85-90 padded by `tile_half`, then the CSV
filter). -/
def stageTiles (g : List NodeData) (rows : List Row) (tile_half : ℚ) (sorted : Bool) :
    List Tile :=
  filterRows
    (listMin ((stageCenters g).map Prod.fst) - tile_half)
    (listMax ((stageCenters g).map Prod.fst) + tile_half)
    (listMin ((stageCenters g).map Prod.snd) - tile_half)
    (listMax ((stageCenters g).map Prod.snd) + tile_half)
    sorted rows

/-- Line 130: `far_thresh_deg = far_thresh_m * deg_per_m if far_thresh_m
else None` with `deg_per_m = 1/111000`.  Python truthiness makes the
value `None` both when the argument is `None` and when it equals `0.0`. -/
def farThreshDeg (far_m : Option ℚ) : Option ℚ :=
  match far_m with
  | some m => if m = 0 then none else some (m / 111000)
  | none => none

/-- Decides `Real.sqrt d2 > t` for `d2 ≥ 0` using rational arithmetic
only: true iff `t < 0` or `d2 > t²`.  This is the comparison
`dist > far_thresh_deg` of the source with `dist` the (nonnegative)
Euclidean distance and `d2` its square. -/
def distGT (d2 t : ℚ) : Bool :=
  if t < 0 then true else decide (t ^ 2 < d2)

/-- The threshold rejection test of lines 168 and 183 (and 228/247 of the
slow path): no threshold never rejects. -/
def rejected (far : Option ℚ) (d2 : ℚ) : Bool :=
  match far with
  | none => false
  | some t => distGT d2 t

/-- Squared Euclidean distance between two planar points. -/
def d2 (p q : ℚ × ℚ) : ℚ :=
  (p.1 - q.1) ^ 2 + (p.2 - q.2) ^ 2

/-- First-minimum scan: index and squared distance of the nearest point
of `pts` to `q`, earliest index winning ties (the `d2 < best_d2` update
of `_find_nearest_tile` / `_find_nearest_road`; also the model of the
KD-tree `query`). -/
def nearestAux (q : ℚ × ℚ) : List (ℚ × ℚ) → ℕ → Option (ℕ × ℚ) → Option (ℕ × ℚ)
  | [], _, best => best
  | p :: ps, i, none => nearestAux q ps (i + 1) (some (i, d2 q p))
  | p :: ps, i, some (bi, bd) =>
    if d2 q p < bd then nearestAux q ps (i + 1) (some (i, d2 q p))
    else nearestAux q ps (i + 1) (some (bi, bd))

/-- Nearest point of `pts` to `q`, as `(index, squared distance)`. -/
def nearest (q : ℚ × ℚ) (pts : List (ℚ × ℚ)) : Option (ℕ × ℚ) :=
  nearestAux q pts 0 none

/-- Scales the longitude axis by `s` (lines 151-155: `coords[:, 0] *=
cos_lat`). -/
def scaleLon (s : ℚ) (l : List (ℚ × ℚ)) : List (ℚ × ℚ) :=
  l.map (fun p => (p.1 * s, p.2))

/-- Adds `v` at position `n` of a list of accumulators (`road_assignments[n]
+= ...`); out-of-range positions never occur in the pipeline. -/
def addAt : List ℚ → ℕ → ℚ → List ℚ
  | [], _, _ => []
  | x :: xs, 0, v => (x + v) :: xs
  | x :: xs, n + 1, v => x :: addAt xs n v

/-- The tile center list (`tile_coords` of line 147, in first-appearance
key order). -/
def tileCoords (tiles : List Tile) : List (ℚ × ℚ) :=
  tiles.map (fun t => (t.lon, t.lat))

/-- Population of the `j`-th tile (`tile_pops[j]` of line 148; 0 out of
range). -/
def popAt (tiles : List Tile) (j : ℕ) : ℚ :=
  (tiles.map Tile.pop).getD j 0

/-- One pass-1 decision (lines 167-169): the nearest tile of road `i`
when it passes the threshold test, `none` when the query fails or the
tile is too far. -/
def claimOf (roadsS tilesS : List (ℚ × ℚ)) (far : Option ℚ) (i : ℕ) : Option ℕ :=
  match nearest (roadsS.getD i (0, 0)) tilesS with
  | none => none
  | some (ti, d) => if rejected far d then none else some ti

/-- One pass-2 decision (lines 182-184): the nearest road of tile `j`
when it passes the threshold test. -/
def roadOf (roadsS tilesS : List (ℚ × ℚ)) (far : Option ℚ) (j : ℕ) : Option ℕ :=
  match nearest (tilesS.getD j (0, 0)) roadsS with
  | none => none
  | some (ri, d) => if rejected far d then none else some ri

/-- One loop iteration of either pass: `f i` yields `none` to skip, or
`(used-set element, accumulator index, population)` to record. -/
def engStep {κ : Type} [DecidableEq κ] (f : ℕ → Option (κ × ℕ × ℚ)) :
    Finset κ × List ℚ → ℕ → Finset κ × List ℚ :=
  fun acc i =>
    match f i with
    | none => acc
    | some y => (insert y.1 acc.1, addAt acc.2 y.2.1 y.2.2)

/-- The pass-1 step data of the fast path: tile index claimed, road index
credited, population added (lines 167-172). -/
def pass1f (roadsS tilesS : List (ℚ × ℚ)) (pops : List ℚ) (far : Option ℚ)
    (i : ℕ) : Option (ℕ × ℕ × ℚ) :=
  (claimOf roadsS tilesS far i).map (fun t => (t, i, pops.getD t 0))

/-- Pass 1 of the fast path: every road queries the tile set; the result
is `(tiles_used, road_assignments)` with accumulators indexed by road. -/
def pass1 (roadsS tilesS : List (ℚ × ℚ)) (pops : List ℚ) (far : Option ℚ) :
    Finset ℕ × List ℚ :=
  (List.range roadsS.length).foldl (engStep (pass1f roadsS tilesS pops far))
    (∅, List.replicate roadsS.length 0)

/-- The pass-2 step data of the fast path: tile index marked used, road
index credited, population added (lines 182-188). -/
def pass2f (roadsS tilesS : List (ℚ × ℚ)) (pops : List ℚ) (far : Option ℚ)
    (j : ℕ) : Option (ℕ × ℕ × ℚ) :=
  (roadOf roadsS tilesS far j).map (fun ri => (j, ri, pops.getD j 0))

/-- Pass 2 of the fast path: the tiles not used in pass 1 (line 175, in
index order) each query the road set. -/
def pass2 (roadsS tilesS : List (ℚ × ℚ)) (pops : List ℚ) (far : Option ℚ)
    (used1 : Finset ℕ) (assign : List ℚ) : Finset ℕ × List ℚ :=
  ((List.range tilesS.length).filter (fun j => decide (j ∉ used1))).foldl
    (engStep (pass2f roadsS tilesS pops far)) (∅, assign)

/-- Result of the two-pass engine: tiles used by each pass and the
per-road accumulators. -/
structure EngineOut where
  used1 : Finset ℕ
  used2 : Finset ℕ
  assign : List ℚ
deriving DecidableEq

/-- Embeds `_get_density_fast` (lines 141-204) up to the graph write-back:
scale longitudes by `cosLat`, run pass 1 then pass 2. -/
def get_density_fast_engine (centers : List (ℚ × ℚ)) (tiles : List Tile)
    (far : Option ℚ) (cosLat : ℚ) : EngineOut :=
  let roadsS := scaleLon cosLat centers
  let tilesS := scaleLon cosLat (tileCoords tiles)
  let pops := tiles.map Tile.pop
  let p1 := pass1 roadsS tilesS pops far
  let p2 := pass2 roadsS tilesS pops far p1.1 p1.2
  ⟨p1.1, p2.1, p2.2⟩

/-- First tile of the list carrying key `k`, or population 0
(`tile_pop.get(key, 0.0)`). -/
def lookupPop (tiles : List Tile) (k : Key) : ℚ :=
  match tiles.find? (fun t => decide (t.key = k)) with
  | some t => t.pop
  | none => 0

/-- Key of the `j`-th tile. -/
def keyAt (tiles : List Tile) (j : ℕ) : Key :=
  (tiles.getD j default).key

/-- The pass-1 step data of the slow fallback (lines 223-231): same
nearest-tile decision, but the used set records raw keys and the
population is looked up by key. -/
def pass1fS (centers : List (ℚ × ℚ)) (tiles : List Tile) (far : Option ℚ)
    (i : ℕ) : Option (Key × ℕ × ℚ) :=
  (claimOf centers (tileCoords tiles) far i).map
    (fun t => (keyAt tiles t, i, lookupPop tiles (keyAt tiles t)))

/-- Pass 1 of the slow fallback. -/
def pass1S (centers : List (ℚ × ℚ)) (tiles : List Tile) (far : Option ℚ) :
    Finset Key × List ℚ :=
  (List.range centers.length).foldl (engStep (pass1fS centers tiles far))
    (∅, List.replicate centers.length 0)

/-- The pass-2 step data of the slow fallback (lines 241-251). -/
def pass2fS (centers : List (ℚ × ℚ)) (tiles : List Tile) (far : Option ℚ)
    (j : ℕ) : Option (Key × ℕ × ℚ) :=
  (roadOf centers (tileCoords tiles) far j).map
    (fun ri => (keyAt tiles j, ri, lookupPop tiles (keyAt tiles j)))

/-- Pass 2 of the slow fallback: `set(tile_pop.keys()) - tiles_used`
iterated in tile-list order (set order is immaterial to the sums). -/
def pass2S (centers : List (ℚ × ℚ)) (tiles : List Tile) (far : Option ℚ)
    (used1 : Finset Key) (assign : List ℚ) : Finset Key × List ℚ :=
  ((List.range tiles.length).filter (fun j => decide (keyAt tiles j ∉ used1))).foldl
    (engStep (pass2fS centers tiles far)) (∅, assign)

/-- Result of the slow fallback engine. -/
structure SlowOut where
  used1 : Finset Key
  used2 : Finset Key
  assign : List ℚ
deriving DecidableEq

/-- Embeds `_get_density_slow` (lines 207-266) up to the graph
write-back: unscaled coordinates, keys in the used sets. -/
def get_density_slow_engine (centers : List (ℚ × ℚ)) (tiles : List Tile)
    (far : Option ℚ) : SlowOut :=
  let p1 := pass1S centers tiles far
  let p2 := pass2S centers tiles far p1.1 p1.2
  ⟨p1.1, p2.1, p2.2⟩

/-- Sets `pop_density := some v` on the node at position `p`. -/
def setPDat : List NodeData → ℕ → ℚ → List NodeData
  | [], _, _ => []
  | d :: ds, 0, v => { d with pop_density := some v } :: ds
  | d :: ds, p + 1, v => d :: setPDat ds p v

/-- The write-back loop (`G.nodes[n]['pop_density'] = pop`, lines
192-193): accumulator `i` is written to node `idxToNode i`.  Roads that
received nothing carry accumulator 0, matching the initialization of
line 75. -/
def writeBack : List NodeData → List ℕ → List ℚ → List NodeData
  | g, [], _ => g
  | g, _, [] => g
  | g, p :: ps, v :: vs => writeBack (setPDat g p v) ps vs

/-- Embeds `get_density` (popdensityV5.py lines 27-138).  `hasScipy`
selects the fast KD-tree path or the linear fallback (the module-level
`HAS_SCIPY`); `cosLat` stands for `math.cos(math.radians(avg_lat))` of
line 151, irrational in general and therefore a parameter of the
embedding (the slow path ignores it). -/
def get_density (hasScipy : Bool) (cosLat : ℚ) (g : List NodeData) (rows : List Row)
    (tile_half : ℚ) (sorted : Bool) (far_m : Option ℚ) : List NodeData :=
  if g.any (fun d => d.pop_density.isSome) then g
  else
    let g0 := initNodes g
    let centers := stageCenters g
    let idxToNode := stageIndexToNode g
    if centers.isEmpty then g0
    else
      let tiles := stageTiles g rows tile_half sorted
      if tiles.isEmpty then g0
      else
        let far := farThreshDeg far_m
        if hasScipy then
          writeBack g0 idxToNode (get_density_fast_engine centers tiles far cosLat).assign
        else
          writeBack g0 idxToNode (get_density_slow_engine centers tiles far).assign

/-- Sum of `pop_density` over all nodes (absent treated as 0). -/
def sumPD (g : List NodeData) : ℚ :=
  (g.map (fun d => d.pop_density.getD 0)).sum

/-- Number of roads in pass 1 that claim tile `t` within the threshold
(each one adds the tile's population to its own accumulator). -/
def claims (roadsS tilesS : List (ℚ × ℚ)) (far : Option ℚ) (t : ℕ) : ℕ :=
  ((Finset.range roadsS.length).filter (fun i => claimOf roadsS tilesS far i = some t)).card

/-- The tile-usage count reported by the source
(`len(tiles_used) + len(tiles_used_pass2)`, line 198). -/
def usedCount (e : EngineOut) : ℕ :=
  e.used1.card + e.used2.card

/-! Basic lemmas about the graph plumbing. -/

theorem any_pd_false {g : List NodeData} (h : ∀ d ∈ g, d.pop_density = none) :
    g.any (fun d => d.pop_density.isSome) = false := by
  simp only [List.any_eq_false]
  intro d hd
  simp [h d hd]

theorem get_density_eq (hs : Bool) (s : ℚ) (g : List NodeData) (rows : List Row)
    (th : ℚ) (sorted : Bool) (far_m : Option ℚ)
    (h : g.any (fun d => d.pop_density.isSome) = false) :
    get_density hs s g rows th sorted far_m =
      if (stageCenters g).isEmpty then initNodes g
      else if (stageTiles g rows th sorted).isEmpty then initNodes g
      else if hs then
        writeBack (initNodes g) (stageIndexToNode g)
          (get_density_fast_engine (stageCenters g) (stageTiles g rows th sorted)
            (farThreshDeg far_m) s).assign
      else
        writeBack (initNodes g) (stageIndexToNode g)
          (get_density_slow_engine (stageCenters g) (stageTiles g rows th sorted)
            (farThreshDeg far_m)).assign := by
  unfold get_density
  rw [if_neg (by simp [h])]

theorem initNodes_map_pd (g : List NodeData) :
    (initNodes g).map (fun d => d.pop_density) = List.replicate g.length (some (0 : ℚ)) := by
  induction g with
  | nil => rfl
  | cons d ds ih => simpa [initNodes, List.replicate] using ih

theorem initNodes_getD_pd (g : List NodeData) :
    ∀ p, p < g.length → ((initNodes g).getD p default).pop_density = some 0 := by
  induction g with
  | nil => intro p hp; simp at hp
  | cons d ds ih =>
    intro p hp
    cases p with
    | zero => rfl
    | succ q => exact ih q (by simpa using hp)

theorem setPDat_getD_ne :
    ∀ (g : List NodeData) (p : ℕ) (v : ℚ) (q : ℕ), q ≠ p →
      (setPDat g p v).getD q default = g.getD q default := by
  intro g
  induction g with
  | nil => intro p v q _; rfl
  | cons d ds ih =>
    intro p v q hq
    cases p with
    | zero =>
      cases q with
      | zero => exact absurd rfl hq
      | succ q' => rfl
    | succ p' =>
      cases q with
      | zero => rfl
      | succ q' => exact ih p' v q' (by omega)

theorem writeBack_getD_not_mem :
    ∀ (ps : List ℕ) (vs : List ℚ) (g : List NodeData) (q : ℕ), q ∉ ps →
      (writeBack g ps vs).getD q default = g.getD q default := by
  intro ps
  induction ps with
  | nil => intro vs g q _; cases vs <;> rfl
  | cons p ps ih =>
    intro vs g q hq
    cases vs with
    | nil => rfl
    | cons v vs =>
      rw [writeBack, ih vs _ q (fun h => hq (List.mem_cons_of_mem _ h)),
        setPDat_getD_ne g p v q (fun h => hq (h ▸ List.mem_cons_self p ps))]

theorem mem_centerEntriesAux :
    ∀ (l : List NodeData) (k : ℕ) (pc : ℕ × (ℚ × ℚ)), pc ∈ centerEntriesAux k l →
      k ≤ pc.1 ∧ pc.1 - k < l.length ∧
        center_from_node_data (l.getD (pc.1 - k) default) = some pc.2 := by
  intro l
  induction l with
  | nil => intro k pc h; simp [centerEntriesAux] at h
  | cons d ds ih =>
    intro k pc h
    rw [centerEntriesAux] at h
    rcases hc : center_from_node_data d with _ | c
    · rw [hc] at h
      obtain ⟨h1, h2, h3⟩ := ih (k + 1) pc h
      obtain ⟨m, hm⟩ : ∃ m, pc.1 - k = m + 1 := ⟨pc.1 - (k + 1), by omega⟩
      refine ⟨by omega, by simp; omega, ?_⟩
      rw [hm, List.getD_cons_succ]
      have : m = pc.1 - (k + 1) := by omega
      rw [this]
      exact h3
    · rw [hc] at h
      rcases List.mem_cons.mp h with h | h
      · subst h
        simp [hc]
      · obtain ⟨h1, h2, h3⟩ := ih (k + 1) pc h
        obtain ⟨m, hm⟩ : ∃ m, pc.1 - k = m + 1 := ⟨pc.1 - (k + 1), by omega⟩
        refine ⟨by omega, by simp; omega, ?_⟩
        rw [hm, List.getD_cons_succ]
        have : m = pc.1 - (k + 1) := by omega
        rw [this]
        exact h3

theorem not_mem_stageIndexToNode {g : List NodeData} {p : ℕ}
    (h : center_from_node_data (g.getD p default) = none) :
    p ∉ stageIndexToNode g := by
  intro hmem
  obtain ⟨pc, hpc, hfst⟩ := List.mem_map.mp hmem
  obtain ⟨_, _, hcent⟩ := mem_centerEntriesAux g 0 pc hpc
  rw [hfst] at hcent
  simp only [Nat.sub_zero] at hcent
  rw [h] at hcent
  exact Option.noConfusion hcent

/-! C5: the already-annotated guard. -/

/-- C5 (confirmed).  Idempotence guard: when any node of the input graph
already carries the `pop_density` attribute, `get_density` returns the
graph unchanged without recomputation (popdensityV5.py lines 66-68), so
a second invocation on an already-annotated road set produces no change. -/
theorem c5_idempotence_guard (hs : Bool) (s : ℚ) (g : List NodeData) (rows : List Row)
    (th : ℚ) (sorted : Bool) (far_m : Option ℚ)
    (h : ∃ d ∈ g, d.pop_density.isSome = true) :
    get_density hs s g rows th sorted far_m = g := by
  have hany : g.any (fun d => d.pop_density.isSome) = true := List.any_eq_true.mpr h
  unfold get_density
  rw [if_pos hany]

/-- Witness for C5 at a concrete annotated graph. -/
theorem c5_idempotence_guard_witness :
    (∃ d ∈ [(⟨none, some 1, none, none, some 1, none, some 5⟩ : NodeData)],
        d.pop_density.isSome = true) ∧
      get_density true 1 [(⟨none, some 1, none, none, some 1, none, some 5⟩ : NodeData)]
          [] 1 false none
        = [(⟨none, some 1, none, none, some 1, none, some 5⟩ : NodeData)] :=
  ⟨by decide, c5_idempotence_guard true 1 _ [] 1 false none (by decide)⟩

/-! C9: empty road set or empty tile overlap. -/

/-- C9 (confirmed).  Empty-input handling: on a not-yet-annotated graph,
when no node yields a center coordinate or no row survives the
bounding-box filter, `get_density` returns normally (lines 81-82 and
123-124) with every node's `pop_density` accumulator equal to zero —
the zero initialization of line 75 is kept. -/
theorem c9_empty_inputs (hs : Bool) (s : ℚ) (g : List NodeData) (rows : List Row)
    (th : ℚ) (sorted : Bool) (far_m : Option ℚ)
    (hclean : ∀ d ∈ g, d.pop_density = none)
    (hempty : stageCenters g = [] ∨ stageTiles g rows th sorted = []) :
    (get_density hs s g rows th sorted far_m).map (fun d => d.pop_density)
      = List.replicate g.length (some 0) := by
  rw [get_density_eq hs s g rows th sorted far_m (any_pd_false hclean)]
  by_cases hc : (stageCenters g).isEmpty
  · rw [if_pos hc]
    exact initNodes_map_pd g
  · rw [if_neg hc, if_pos]
    · exact initNodes_map_pd g
    · rcases hempty with h | h
      · exact absurd (by simp [h, List.isEmpty_nil]) hc
      · simp [h]

/-- Witness for C9: one node with no usable coordinates, one row. -/
theorem c9_empty_inputs_witness :
    ((∀ d ∈ [(⟨none, none, none, none, none, none, none⟩ : NodeData)], d.pop_density = none) ∧
        stageCenters [(⟨none, none, none, none, none, none, none⟩ : NodeData)] = []) ∧
      (get_density true 1 [(⟨none, none, none, none, none, none, none⟩ : NodeData)]
          [⟨"1", "1", some 1, some 1, some 5⟩] 1 false (some 100)).map
          (fun d => d.pop_density)
        = List.replicate 1 (some 0) :=
  ⟨⟨by decide, by decide⟩,
    c9_empty_inputs true 1 _ _ 1 false (some 100) (by decide) (Or.inl (by decide))⟩

/-! C10: Python truthiness drops coordinates equal to 0.0. -/

/-- C10 (confirmed).  Falsy-coordinate edge case: `data.get('x') or
data.get('lon') or data.get('long')` (line 60) treats a coordinate whose
value is exactly 0.0 as absent.  A node whose only coordinate attribute
is `x = 0.0` (no geometry, no `lon`/`long`) therefore has no resolvable
center, is excluded from the assignment, and keeps `pop_density = 0.0`
after a full run. -/
theorem c10_falsy_coordinate (hs : Bool) (s : ℚ) (g : List NodeData) (rows : List Row)
    (th : ℚ) (sorted : Bool) (far_m : Option ℚ) (p : ℕ) (d : NodeData)
    (hp : p < g.length)
    (hd : g.getD p default = d)
    (hgeom : d.geometry = none)
    (hx : d.x = some 0)
    (hlon : d.lon = none)
    (hlong : d.long = none)
    (hclean : ∀ d ∈ g, d.pop_density = none) :
    center_from_node_data d = none ∧
      ((get_density hs s g rows th sorted far_m).getD p default).pop_density = some 0 := by
  have hcn : center_from_node_data d = none := by
    unfold center_from_node_data
    rw [hgeom, hx, hlon, hlong]
    simp [pyOrQ]
  refine ⟨hcn, ?_⟩
  rw [← hd] at hcn
  rw [get_density_eq hs s g rows th sorted far_m (any_pd_false hclean)]
  have hinit : ((initNodes g).getD p default).pop_density = some 0 := initNodes_getD_pd g p hp
  have hnm : p ∉ stageIndexToNode g := not_mem_stageIndexToNode hcn
  by_cases hc : (stageCenters g).isEmpty
  · rw [if_pos hc]; exact hinit
  · rw [if_neg hc]
    by_cases ht : (stageTiles g rows th sorted).isEmpty
    · rw [if_pos ht]; exact hinit
    · rw [if_neg ht]
      by_cases hscipy : hs
      · rw [if_pos hscipy, writeBack_getD_not_mem _ _ _ p hnm]; exact hinit
      · rw [if_neg hscipy, writeBack_getD_not_mem _ _ _ p hnm]; exact hinit

/-- Witness for C10: a node at longitude 0.0 given only via `x`, with a
road and a tile nearby that would otherwise be assigned. -/
theorem c10_falsy_coordinate_witness :
    (0 < [(⟨none, some 0, none, none, some 5, none, none⟩ : NodeData)].length) ∧
      (center_from_node_data (⟨none, some 0, none, none, some 5, none, none⟩ : NodeData) = none ∧
        ((get_density true 1 [(⟨none, some 0, none, none, some 5, none, none⟩ : NodeData)]
            [⟨"0", "5", some 0, some 5, some 9⟩] 2 false none).getD 0 default).pop_density
          = some 0) :=
  ⟨by decide,
    c10_falsy_coordinate true 1 _ _ 2 false none 0 _ (by decide) (by decide) (by decide)
      (by decide) (by decide) (by decide) (by decide)⟩

/-! C3: a zero threshold is falsy and disables thresholding. -/

/-- C3 (code bug).  The spec's degenerate-threshold scenario says that with
`distanceThresholdMeters = 0` and no exact road/tile coincidence every
assignment fails and all densities stay 0.0, and that only a null
threshold disables thresholding.  Line 130 (`far_thresh_m * deg_per_m if
far_thresh_m else None`) instead treats the falsy value `0` exactly like
`None`, so thresholding is disabled and the tile is assigned regardless
of distance: here the single road center is `(1, 1)`, the single tile
center is `(2, 1)` (one full degree away), and the road still receives
the tile's population 10. -/
theorem c3_threshold_zero_eval :
    farThreshDeg (some 0) = farThreshDeg none ∧
      stageCenters [(⟨none, some 1, none, none, some 1, none, none⟩ : NodeData)] = [(1, 1)] ∧
      (stageTiles [(⟨none, some 1, none, none, some 1, none, none⟩ : NodeData)]
          [⟨"2", "1", some 2, some 1, some 10⟩] 2 false).map (fun t => (t.lon, t.lat))
        = [(2, 1)] ∧
      (get_density true 1 [(⟨none, some 1, none, none, some 1, none, none⟩ : NodeData)]
          [⟨"2", "1", some 2, some 1, some 10⟩] 2 false (some 0)).map
          (fun d => d.pop_density)
        = [some 10] := by
  refine ⟨by decide, by decide, by decide, by decide⟩

/-! Generic lemmas about the pass folds. -/

/-- The used-set component of a pass, folded on its own (the assignment
component never influences it). -/
def setFold {κ : Type} [DecidableEq κ] (f : ℕ → Option (κ × ℕ × ℚ)) (l : List ℕ)
    (S : Finset κ) : Finset κ :=
  l.foldl (fun s i => match f i with | none => s | some y => insert y.1 s) S

theorem engStep_foldl_fst {κ : Type} [DecidableEq κ] (f : ℕ → Option (κ × ℕ × ℚ)) :
    ∀ (l : List ℕ) (S : Finset κ) (a : List ℚ),
      (l.foldl (engStep f) (S, a)).1 = setFold f l S := by
  intro l
  induction l with
  | nil => intro S a; rfl
  | cons i l ih =>
    intro S a
    cases hf : f i with
    | none => simpa [setFold, engStep, hf] using ih S a
    | some y => simpa [setFold, engStep, hf] using ih (insert y.1 S) (addAt a y.2.1 y.2.2)

theorem mem_setFold {κ : Type} [DecidableEq κ] (f : ℕ → Option (κ × ℕ × ℚ)) :
    ∀ (l : List ℕ) (S : Finset κ) (x : κ),
      x ∈ setFold f l S ↔ x ∈ S ∨ ∃ i ∈ l, ∃ y, f i = some y ∧ y.1 = x := by
  intro l
  induction l with
  | nil => intro S x; simp [setFold]
  | cons i l ih =>
    intro S x
    cases hf : f i with
    | none =>
      have hstep : setFold f (i :: l) S = setFold f l S := by simp [setFold, hf]
      rw [hstep, ih]
      constructor
      · rintro (h | ⟨j, hj, y, hy, hyx⟩)
        · exact Or.inl h
        · exact Or.inr ⟨j, List.mem_cons_of_mem _ hj, y, hy, hyx⟩
      · rintro (h | ⟨j, hj, y, hy, hyx⟩)
        · exact Or.inl h
        · rcases List.mem_cons.mp hj with rfl | hj'
          · rw [hf] at hy; exact Option.noConfusion hy
          · exact Or.inr ⟨j, hj', y, hy, hyx⟩
    | some y0 =>
      have hstep : setFold f (i :: l) S = setFold f l (insert y0.1 S) := by simp [setFold, hf]
      rw [hstep, ih]
      constructor
      · rintro (h | ⟨j, hj, y, hy, hyx⟩)
        · rcases Finset.mem_insert.mp h with rfl | h
          · exact Or.inr ⟨i, List.mem_cons_self _ _, y0, hf, rfl⟩
          · exact Or.inl h
        · exact Or.inr ⟨j, List.mem_cons_of_mem _ hj, y, hy, hyx⟩
      · rintro (h | ⟨j, hj, y, hy, hyx⟩)
        · exact Or.inl (Finset.mem_insert_of_mem h)
        · rcases List.mem_cons.mp hj with rfl | hj'
          · rw [hf] at hy
            obtain rfl : y0 = y := Option.some.inj hy
            exact Or.inl (Finset.mem_insert.mpr (Or.inl hyx.symm))
          · exact Or.inr ⟨j, hj', y, hy, hyx⟩

theorem addAt_length : ∀ (l : List ℚ) (n : ℕ) (v : ℚ), (addAt l n v).length = l.length := by
  intro l
  induction l with
  | nil => intro n v; rfl
  | cons x xs ih =>
    intro n v
    cases n with
    | zero => rfl
    | succ m => simpa [addAt] using ih m v

theorem addAt_sum : ∀ (l : List ℚ) (n : ℕ) (v : ℚ), n < l.length →
    (addAt l n v).sum = l.sum + v := by
  intro l
  induction l with
  | nil => intro n v h; simp at h
  | cons x xs ih =>
    intro n v h
    cases n with
    | zero => simp [addAt]; ring
    | succ m =>
      have : m < xs.length := by simpa using h
      simp [addAt, ih m v this]; ring

theorem engStep_foldl_snd_len {κ : Type} [DecidableEq κ] (f : ℕ → Option (κ × ℕ × ℚ)) :
    ∀ (l : List ℕ) (S : Finset κ) (a : List ℚ),
      ((l.foldl (engStep f) (S, a)).2).length = a.length := by
  intro l
  induction l with
  | nil => intro S a; rfl
  | cons i l ih =>
    intro S a
    cases hf : f i with
    | none => simpa [engStep, hf] using ih S a
    | some y =>
      have := ih (insert y.1 S) (addAt a y.2.1 y.2.2)
      rw [addAt_length] at this
      simpa [engStep, hf] using this

/-- The amount one loop iteration adds to some accumulator (0 when the
iteration skips). -/
def stepVal {κ : Type} (f : ℕ → Option (κ × ℕ × ℚ)) (i : ℕ) : ℚ :=
  match f i with
  | some y => y.2.2
  | none => 0

theorem stepVal_eq_none {κ : Type} {f : ℕ → Option (κ × ℕ × ℚ)} {i : ℕ}
    (hf : f i = none) : stepVal f i = 0 := by
  unfold stepVal
  rw [hf]

theorem stepVal_eq_some {κ : Type} {f : ℕ → Option (κ × ℕ × ℚ)} {i : ℕ} {y : κ × ℕ × ℚ}
    (hf : f i = some y) : stepVal f i = y.2.2 := by
  unfold stepVal
  rw [hf]

theorem engStep_foldl_snd_sum {κ : Type} [DecidableEq κ] (f : ℕ → Option (κ × ℕ × ℚ)) :
    ∀ (l : List ℕ) (S : Finset κ) (a : List ℚ),
      (∀ i ∈ l, ∀ y, f i = some y → y.2.1 < a.length) →
      ((l.foldl (engStep f) (S, a)).2).sum = a.sum + (l.map (stepVal f)).sum := by
  intro l
  induction l with
  | nil => intro S a _; simp
  | cons i l ih =>
    intro S a hb
    simp only [List.foldl_cons, List.map_cons, List.sum_cons]
    cases hf : f i with
    | none =>
      have h1 : engStep f (S, a) i = (S, a) := by simp [engStep, hf]
      rw [h1, ih S a (fun j hj => hb j (List.mem_cons_of_mem _ hj)), stepVal_eq_none hf]
      ring
    | some y =>
      have h1 : engStep f (S, a) i = (insert y.1 S, addAt a y.2.1 y.2.2) := by
        simp [engStep, hf]
      have hlen : y.2.1 < a.length := hb i (List.mem_cons_self _ _) y hf
      rw [h1, ih _ _ (fun j hj y' hy' => by
          rw [addAt_length]; exact hb j (List.mem_cons_of_mem _ hj) y' hy'),
        addAt_sum a y.2.1 y.2.2 hlen, stepVal_eq_some hf]
      ring

/-! Bounds on the nearest-neighbor query. -/

theorem nearestAux_lt (q : ℚ × ℚ) :
    ∀ (ps : List (ℚ × ℚ)) (i : ℕ) (best : Option (ℕ × ℚ)),
      (∀ bi bd, best = some (bi, bd) → bi < i) →
      ∀ ri rd, nearestAux q ps i best = some (ri, rd) → ri < i + ps.length := by
  intro ps
  induction ps with
  | nil =>
    intro i best hb ri rd h
    rw [nearestAux] at h
    have := hb ri rd h
    omega
  | cons p ps ih =>
    intro i best hb ri rd h
    cases best with
    | none =>
      rw [nearestAux] at h
      have := ih (i + 1) (some (i, d2 q p))
        (by rintro bi bd hbi
            have : bi = i := (congrArg Prod.fst (Option.some.inj hbi)).symm
            omega) ri rd h
      simp only [List.length_cons]
      omega
    | some b =>
      obtain ⟨bi, bd⟩ := b
      rw [nearestAux] at h
      by_cases hd : d2 q p < bd
      · rw [if_pos hd] at h
        have := ih (i + 1) (some (i, d2 q p))
          (by rintro bi' bd' hbi
              have : bi' = i := (congrArg Prod.fst (Option.some.inj hbi)).symm
              omega) ri rd h
        simp only [List.length_cons]
        omega
      · rw [if_neg hd] at h
        have hbi : bi < i := hb bi bd rfl
        have := ih (i + 1) (some (bi, bd))
          (by rintro bi' bd' hbi'
              have : bi' = bi := (congrArg Prod.fst (Option.some.inj hbi')).symm
              omega) ri rd h
        simp only [List.length_cons]
        omega

theorem nearest_lt {q : ℚ × ℚ} {pts : List (ℚ × ℚ)} {ri : ℕ} {rd : ℚ}
    (h : nearest q pts = some (ri, rd)) : ri < pts.length := by
  have := nearestAux_lt q pts 0 none (by rintro bi bd h'; exact Option.noConfusion h') ri rd h
  omega

theorem claimOf_lt {roadsS tilesS : List (ℚ × ℚ)} {far : Option ℚ} {i t : ℕ}
    (h : claimOf roadsS tilesS far i = some t) : t < tilesS.length := by
  unfold claimOf at h
  split at h
  next => exact Option.noConfusion h
  next ti d hn =>
    split at h
    · exact Option.noConfusion h
    · obtain rfl : ti = t := Option.some.inj h
      exact nearest_lt hn

theorem roadOf_lt {roadsS tilesS : List (ℚ × ℚ)} {far : Option ℚ} {j ri : ℕ}
    (h : roadOf roadsS tilesS far j = some ri) : ri < roadsS.length := by
  unfold roadOf at h
  split at h
  next => exact Option.noConfusion h
  next ri' d hn =>
    split at h
    · exact Option.noConfusion h
    · obtain rfl : ri' = ri := Option.some.inj h
      exact nearest_lt hn

/-! Characterizations of the two passes. -/

theorem mem_pass1_fst (roadsS tilesS : List (ℚ × ℚ)) (pops : List ℚ) (far : Option ℚ)
    (t : ℕ) :
    t ∈ (pass1 roadsS tilesS pops far).1
      ↔ ∃ i, i < roadsS.length ∧ claimOf roadsS tilesS far i = some t := by
  unfold pass1
  rw [engStep_foldl_fst, mem_setFold]
  simp only [Finset.not_mem_empty, false_or, List.mem_range, pass1f, Option.map_eq_some']
  constructor
  · rintro ⟨i, hi, y, ⟨t', ht', rfl⟩, hy1⟩
    exact ⟨i, hi, by simpa [← hy1] using ht'⟩
  · rintro ⟨i, hi, hc⟩
    exact ⟨i, hi, (t, i, pops.getD t 0), ⟨t, hc, rfl⟩, rfl⟩

theorem pass1_fst_eq (roadsS tilesS : List (ℚ × ℚ)) (pops : List ℚ) (far : Option ℚ) :
    (pass1 roadsS tilesS pops far).1
      = (Finset.range tilesS.length).filter
          (fun t => 0 < claims roadsS tilesS far t) := by
  ext t
  rw [mem_pass1_fst, Finset.mem_filter, Finset.mem_range]
  constructor
  · rintro ⟨i, hi, hc⟩
    refine ⟨claimOf_lt hc, ?_⟩
    rw [claims, Finset.card_pos]
    exact ⟨i, Finset.mem_filter.mpr ⟨Finset.mem_range.mpr hi, hc⟩⟩
  · rintro ⟨ht, hpos⟩
    rw [claims, Finset.card_pos] at hpos
    obtain ⟨i, hi⟩ := hpos
    rw [Finset.mem_filter, Finset.mem_range] at hi
    exact ⟨i, hi.1, hi.2⟩

theorem mem_pass2_fst (roadsS tilesS : List (ℚ × ℚ)) (pops : List ℚ) (far : Option ℚ)
    (used1 : Finset ℕ) (assign : List ℚ) (j : ℕ) :
    j ∈ (pass2 roadsS tilesS pops far used1 assign).1
      ↔ j < tilesS.length ∧ j ∉ used1 ∧ (roadOf roadsS tilesS far j).isSome = true := by
  unfold pass2
  rw [engStep_foldl_fst, mem_setFold]
  simp only [Finset.not_mem_empty, false_or, List.mem_filter, List.mem_range, pass2f,
    Option.map_eq_some', decide_eq_true_eq]
  constructor
  · rintro ⟨i, ⟨hi, hni⟩, y, ⟨ri, hri, rfl⟩, hy1⟩
    obtain rfl : i = j := hy1
    exact ⟨hi, hni, by simp [hri]⟩
  · rintro ⟨hj, hnj, hs⟩
    obtain ⟨ri, hri⟩ := Option.isSome_iff_exists.mp hs
    exact ⟨j, ⟨hj, hnj⟩, (j, ri, pops.getD j 0), ⟨ri, hri, rfl⟩, rfl⟩

theorem pass2_fst_eq (roadsS tilesS : List (ℚ × ℚ)) (pops : List ℚ) (far : Option ℚ)
    (used1 : Finset ℕ) (assign : List ℚ) :
    (pass2 roadsS tilesS pops far used1 assign).1
      = (Finset.range tilesS.length).filter
          (fun j => j ∉ used1 ∧ (roadOf roadsS tilesS far j).isSome = true) := by
  ext j
  rw [mem_pass2_fst, Finset.mem_filter, Finset.mem_range]

/-- Shared fact: a tile used in pass 2 was not used in pass 1 (pass 2
only iterates the tiles of `tiles_remaining`, line 175). -/
theorem engine_used_disjoint (centers : List (ℚ × ℚ)) (tiles : List Tile)
    (far : Option ℚ) (s : ℚ) :
    Disjoint (get_density_fast_engine centers tiles far s).used1
      (get_density_fast_engine centers tiles far s).used2 := by
  rw [Finset.disjoint_left]
  intro t ht1 ht2
  simp only [get_density_fast_engine] at ht1 ht2
  exact ((mem_pass2_fst _ _ _ _ _ _ t).mp ht2).2.1 ht1

/-! C2: single assignment. -/

/-- C2 (corrected).  The surviving half of the single-assignment claim:
in every engine run a tile is used by at most one pass — any tile marked
used in pass 2 was not claimed in pass 1 (counterexample
`c2_single_assignment_cex` shows the other half fails: within pass 1 a
tile may be claimed by several roads, each receiving its population). -/
theorem c2_single_assignment_amended (centers : List (ℚ × ℚ)) (tiles : List Tile)
    (far : Option ℚ) (s : ℚ) :
    Disjoint (get_density_fast_engine centers tiles far s).used1
      (get_density_fast_engine centers tiles far s).used2 :=
  engine_used_disjoint centers tiles far s

/-- Counterexample to C2 as stated: two roads at `(1,1)` and `(1,3)`,
one tile at `(1,2)` with population 10, no threshold.  The tile (index 0)
is the nearest tile of both roads, so pass 1 claims it twice
(`claims ... 0 = 2`) and its population is added to the accumulators of
two different roads (`assign = [10, 10]`), contradicting "a tile's
population is added to the accumulator of at most one road". -/
theorem c2_single_assignment_cex :
    claims [((1 : ℚ), (1 : ℚ)), (1, 3)] [((1 : ℚ), (2 : ℚ))] none 0 = 2 ∧
      (get_density_fast_engine [((1 : ℚ), (1 : ℚ)), (1, 3)]
          [⟨("1", "2"), 10, 1, 2⟩] none 1).assign = [10, 10] :=
  ⟨by decide, by decide⟩

/-! Lemmas about the row filter. -/

/-- A row source sorted by latitude: the parsed latitude column is
non-decreasing along the stream. -/
def SortedByLat (rows : List Row) : Prop :=
  List.Pairwise (· ≤ ·) (rows.filterMap (fun r => r.latVal))

theorem sortedByLat_tail {r0 : Row} {rs : List Row} (h : SortedByLat (r0 :: rs)) :
    SortedByLat rs := by
  unfold SortedByLat at *
  cases hl : r0.latVal with
  | none => simpa [List.filterMap_cons, hl] using h
  | some l0 =>
    rw [List.filterMap_cons, hl] at h
    exact (List.pairwise_cons.mp h).2

theorem sortedByLat_head {r0 : Row} {rs : List Row} {l0 : ℚ} (h : SortedByLat (r0 :: rs))
    (hl : r0.latVal = some l0) {r : Row} (hr : r ∈ rs) {la : ℚ}
    (hla : r.latVal = some la) : l0 ≤ la := by
  unfold SortedByLat at h
  rw [List.filterMap_cons, hl] at h
  exact (List.pairwise_cons.mp h).1 la (List.mem_filterMap.mpr ⟨r, hr, hla⟩)

theorem parseRow_fields {r : Row} {lo la v : ℚ} (h : parseRow r = some (lo, la, v)) :
    r.lonVal = some lo ∧ r.latVal = some la ∧ r.popVal = some v := by
  unfold parseRow at h
  cases hl : r.lonVal <;> rw [hl] at h <;>
    cases hla : r.latVal <;> rw [hla] at h <;>
      cases hv : r.popVal <;> rw [hv] at h <;>
        simp_all

theorem mem_keys_addTile (acc : List Tile) (k : Key) (v : ℚ) (c : ℚ × ℚ) (k' : Key) :
    k' ∈ (addTile acc k v c).map Tile.key ↔ k' ∈ acc.map Tile.key ∨ k' = k := by
  induction acc with
  | nil => simp [addTile]
  | cons t ts ih =>
    by_cases ht : t.key = k
    · simp only [addTile, if_pos ht, List.map_cons, List.mem_cons]
      rw [ht]
      tauto
    · simp only [addTile, if_neg ht, List.map_cons, List.mem_cons, ih]
      tauto

theorem filterRowsAux_key_mono (W E S N : ℚ) (sorted : Bool) :
    ∀ (rows : List Row) (seen : Bool) (acc : List Tile) (k : Key),
      k ∈ acc.map Tile.key →
      k ∈ (filterRowsAux W E S N sorted rows seen acc).map Tile.key := by
  intro rows
  induction rows with
  | nil => intro seen acc k hk; simpa [filterRowsAux] using hk
  | cons r0 rs ih =>
    intro seen acc k hk
    cases hp0 : parseRow r0 with
    | none => simpa [filterRowsAux, hp0] using ih seen acc k hk
    | some triple =>
      obtain ⟨lo0, la0, v0⟩ := triple
      by_cases hb0 : lo0 < W ∨ lo0 > E ∨ la0 < S ∨ la0 > N
      · by_cases hbrk : sorted = true ∧ la0 > N ∧ seen = true
        · have hstep : filterRowsAux W E S N sorted (r0 :: rs) seen acc = acc := by
            simp only [filterRowsAux, hp0]
            rw [if_pos hb0, if_pos hbrk]
          rw [hstep]; exact hk
        · have hstep : filterRowsAux W E S N sorted (r0 :: rs) seen acc
              = filterRowsAux W E S N sorted rs seen acc := by
            simp only [filterRowsAux, hp0]
            rw [if_pos hb0, if_neg hbrk]
          rw [hstep]; exact ih seen acc k hk
      · have hstep : filterRowsAux W E S N sorted (r0 :: rs) seen acc
            = filterRowsAux W E S N sorted rs true (addTile acc (rowKey r0) v0 (lo0, la0)) := by
          simp only [filterRowsAux, hp0]
          rw [if_neg hb0]
        rw [hstep]
        exact ih true _ k ((mem_keys_addTile acc (rowKey r0) v0 (lo0, la0) k).mpr (Or.inl hk))

theorem filterRowsAux_complete (W E S N : ℚ) (sorted : Bool) :
    ∀ (rows : List Row) (seen : Bool) (acc : List Tile) (r : Row) (lo la v : ℚ),
      r ∈ rows → parseRow r = some (lo, la, v) →
      ¬(lo < W ∨ lo > E ∨ la < S ∨ la > N) →
      (sorted = false ∨ SortedByLat rows) →
      rowKey r ∈ (filterRowsAux W E S N sorted rows seen acc).map Tile.key := by
  intro rows
  induction rows with
  | nil => intro seen acc r lo la v hr; simp at hr
  | cons r0 rs ih =>
    intro seen acc r lo la v hr hp hbox hsort
    have hsort' : sorted = false ∨ SortedByLat rs := by
      rcases hsort with h | h
      · exact Or.inl h
      · exact Or.inr (sortedByLat_tail h)
    cases hp0 : parseRow r0 with
    | none =>
      have hr' : r ∈ rs := by
        rcases List.mem_cons.mp hr with rfl | h
        · rw [hp0] at hp; exact Option.noConfusion hp
        · exact h
      simpa [filterRowsAux, hp0] using ih seen acc r lo la v hr' hp hbox hsort'
    | some triple =>
      obtain ⟨lo0, la0, v0⟩ := triple
      by_cases hb0 : lo0 < W ∨ lo0 > E ∨ la0 < S ∨ la0 > N
      · have hr' : r ∈ rs := by
          rcases List.mem_cons.mp hr with rfl | h
          · rw [hp0] at hp
            obtain ⟨h1, h2, h3⟩ : lo0 = lo ∧ la0 = la ∧ v0 = v := by
              have := Option.some.inj hp
              exact ⟨congrArg Prod.fst this, congrArg (fun x => x.2.1) this,
                congrArg (fun x => x.2.2) this⟩
            subst h1; subst h2
            exact absurd hb0 hbox
          · exact h
        by_cases hbrk : sorted = true ∧ la0 > N ∧ seen = true
        · exfalso
          obtain ⟨hsT, hla0, _⟩ := hbrk
          rcases hsort with hF | hS
          · rw [hF] at hsT; exact Bool.noConfusion hsT
          · have hl0 : r0.latVal = some la0 := (parseRow_fields hp0).2.1
            have hla : r.latVal = some la := (parseRow_fields hp).2.1
            have hle : la0 ≤ la := sortedByLat_head hS hl0 hr' hla
            push_neg at hbox
            have hlen : la ≤ N := hbox.2.2.2
            linarith
        · have hstep : filterRowsAux W E S N sorted (r0 :: rs) seen acc
              = filterRowsAux W E S N sorted rs seen acc := by
            simp only [filterRowsAux, hp0]
            rw [if_pos hb0, if_neg hbrk]
          rw [hstep]
          exact ih seen acc r lo la v hr' hp hbox hsort'
      · have hstep : filterRowsAux W E S N sorted (r0 :: rs) seen acc
            = filterRowsAux W E S N sorted rs true (addTile acc (rowKey r0) v0 (lo0, la0)) := by
          simp only [filterRowsAux, hp0]
          rw [if_neg hb0]
        rw [hstep]
        rcases List.mem_cons.mp hr with rfl | hrs
        · exact filterRowsAux_key_mono W E S N sorted rs true _ (rowKey r)
            ((mem_keys_addTile acc (rowKey r) v0 (lo0, la0) (rowKey r)).mpr (Or.inr rfl))
        · exact ih true _ r lo la v hrs hp hbox hsort'

/-! C7: box completeness. -/

/-- C7 (confirmed).  Box completeness: every source row whose parsed
coordinate lies strictly inside the un-padded road-center bounding box
`[w, e] × [s, n]` appears (by key) in the tile mapping filtered against
the box padded by `th ≥ 0`, matching the bounds `get_density` builds at
lines 87-90.  With `assume_sorted_by_lat` enabled, the early break of
line 114 drops no such row of a latitude-sorted source; with it
disabled, no hypothesis on the source is needed. -/
theorem c7_box_completeness (w e s n th : ℚ) (sorted : Bool) (rows : List Row)
    (r : Row) (lo la v : ℚ)
    (hth : 0 ≤ th) (hr : r ∈ rows) (hp : parseRow r = some (lo, la, v))
    (hlo1 : w < lo) (hlo2 : lo < e) (hla1 : s < la) (hla2 : la < n)
    (hsort : sorted = false ∨ SortedByLat rows) :
    rowKey r ∈ (filterRows (w - th) (e + th) (s - th) (n + th) sorted rows).map Tile.key := by
  unfold filterRows
  refine filterRowsAux_complete (w - th) (e + th) (s - th) (n + th) sorted rows false []
    r lo la v hr hp ?_ hsort
  push_neg
  refine ⟨by linarith, by linarith, by linarith, by linarith⟩

/-- Witness for C7: a latitude-sorted two-row source with the early exit
enabled; the row at `(1, 1)` lies strictly inside the unit box. -/
theorem c7_box_completeness_witness :
    ((0 : ℚ) ≤ 1 / 7200 ∧
        (⟨"1", "1", some 1, some 1, some 5⟩ : Row)
          ∈ [(⟨"1", "1", some 1, some 1, some 5⟩ : Row), ⟨"9", "9", some 9, some 9, some 3⟩] ∧
        parseRow (⟨"1", "1", some 1, some 1, some 5⟩ : Row) = some (1, 1, 5) ∧
        SortedByLat
          [(⟨"1", "1", some 1, some 1, some 5⟩ : Row), ⟨"9", "9", some 9, some 9, some 3⟩]) ∧
      rowKey (⟨"1", "1", some 1, some 1, some 5⟩ : Row)
        ∈ (filterRows (0 - 1 / 7200) (2 + 1 / 7200) (0 - 1 / 7200) (2 + 1 / 7200) true
            [(⟨"1", "1", some 1, some 1, some 5⟩ : Row),
              ⟨"9", "9", some 9, some 9, some 3⟩]).map Tile.key :=
  ⟨⟨by decide, by decide, by decide, by
      unfold SortedByLat
      decide⟩,
    c7_box_completeness 0 2 0 2 (1 / 7200) true _ _ 1 1 5 (by decide) (by decide) (by decide)
      (by decide) (by decide) (by decide) (by decide)
      (Or.inr (by
        unfold SortedByLat
        decide))⟩

/-! C8: duplicate-key aggregation. -/

/-- Contribution of one source row to the aggregated population of key
`k` under box `[W, E] × [S, N]`: its value when it parses, lands in the
box and carries key `k`; zero otherwise. -/
def rowContrib (W E S N : ℚ) (k : Key) (r : Row) : ℚ :=
  match parseRow r with
  | none => 0
  | some (lo, la, v) =>
    if lo < W ∨ lo > E ∨ la < S ∨ la > N then 0
    else if rowKey r = k then v else 0

theorem rowContrib_eq_none {W E S N : ℚ} {k : Key} {r : Row} (hp : parseRow r = none) :
    rowContrib W E S N k r = 0 := by
  unfold rowContrib
  rw [hp]

theorem rowContrib_eq_some {W E S N : ℚ} {k : Key} {r : Row} {lo la v : ℚ}
    (hp : parseRow r = some (lo, la, v)) :
    rowContrib W E S N k r
      = if lo < W ∨ lo > E ∨ la < S ∨ la > N then 0
        else if rowKey r = k then v else 0 := by
  unfold rowContrib
  rw [hp]

theorem lookupPop_addTile (acc : List Tile) (k' : Key) (v : ℚ) (c : ℚ × ℚ) (k : Key) :
    lookupPop (addTile acc k' v c) k = lookupPop acc k + (if k' = k then v else 0) := by
  induction acc with
  | nil =>
    unfold addTile lookupPop
    by_cases hk : k' = k
    · rw [if_pos hk, List.find?_cons_of_pos _ (by simp [hk])]
      simp
    · rw [if_neg hk, List.find?_cons_of_neg _ (by simp [hk])]
      simp
  | cons t ts ih =>
    unfold addTile
    by_cases ht : t.key = k'
    · rw [if_pos ht]
      unfold lookupPop
      by_cases htk : t.key = k
      · rw [List.find?_cons_of_pos _ (by simp [htk]), List.find?_cons_of_pos _ (by simp [htk])]
        rw [if_pos (ht.symm.trans htk)]
      · rw [List.find?_cons_of_neg _ (by simp [htk]), List.find?_cons_of_neg _ (by simp [htk])]
        rw [if_neg (fun h => htk (ht.trans h))]
        simp
    · rw [if_neg ht]
      unfold lookupPop
      by_cases htk : t.key = k
      · rw [List.find?_cons_of_pos _ (by simp [htk]), List.find?_cons_of_pos _ (by simp [htk])]
        rw [if_neg (fun h => ht (htk.trans h.symm))]
        simp
      · rw [List.find?_cons_of_neg _ (by simp [htk]), List.find?_cons_of_neg _ (by simp [htk])]
        exact ih

theorem rowContrib_suffix_zero {W E S N : ℚ} {k : Key} {r0 : Row} {rs : List Row}
    {la0 : ℚ} (hS : SortedByLat (r0 :: rs)) (hl0 : r0.latVal = some la0)
    (hla0 : la0 > N) : ∀ r ∈ rs, rowContrib W E S N k r = 0 := by
  intro r hr
  cases hp : parseRow r with
  | none => exact rowContrib_eq_none hp
  | some triple =>
    obtain ⟨lo, la, v⟩ := triple
    have hla : r.latVal = some la := (parseRow_fields hp).2.1
    have h1 : la0 ≤ la := sortedByLat_head hS hl0 hr hla
    rw [rowContrib_eq_some hp, if_pos (Or.inr (Or.inr (Or.inr (by linarith))))]

theorem filterRowsAux_lookup (W E S N : ℚ) (sorted : Bool) (k : Key) :
    ∀ (rows : List Row) (seen : Bool) (acc : List Tile),
      (sorted = false ∨ SortedByLat rows) →
      lookupPop (filterRowsAux W E S N sorted rows seen acc) k
        = lookupPop acc k + (rows.map (rowContrib W E S N k)).sum := by
  intro rows
  induction rows with
  | nil => intro seen acc _; simp [filterRowsAux]
  | cons r0 rs ih =>
    intro seen acc hsort
    have hsort' : sorted = false ∨ SortedByLat rs := by
      rcases hsort with h | h
      · exact Or.inl h
      · exact Or.inr (sortedByLat_tail h)
    simp only [List.map_cons, List.sum_cons]
    cases hp0 : parseRow r0 with
    | none =>
      have hc : rowContrib W E S N k r0 = 0 := rowContrib_eq_none hp0
      have hstep : filterRowsAux W E S N sorted (r0 :: rs) seen acc
          = filterRowsAux W E S N sorted rs seen acc := by
        simp only [filterRowsAux, hp0]
      rw [hstep, ih seen acc hsort', hc]
      ring
    | some triple =>
      obtain ⟨lo0, la0, v0⟩ := triple
      by_cases hb0 : lo0 < W ∨ lo0 > E ∨ la0 < S ∨ la0 > N
      · have hc : rowContrib W E S N k r0 = 0 := by
          rw [rowContrib_eq_some hp0, if_pos hb0]
        by_cases hbrk : sorted = true ∧ la0 > N ∧ seen = true
        · have hstep : filterRowsAux W E S N sorted (r0 :: rs) seen acc = acc := by
            simp only [filterRowsAux, hp0]
            rw [if_pos hb0, if_pos hbrk]
          have hsuffix : (rs.map (rowContrib W E S N k)).sum = 0 := by
            apply List.sum_eq_zero
            intro x hx
            obtain ⟨r, hr, rfl⟩ := List.mem_map.mp hx
            rcases hsort with hF | hS
            · rw [hF] at hbrk; exact absurd hbrk.1 (by simp)
            · exact rowContrib_suffix_zero hS ((parseRow_fields hp0).2.1) hbrk.2.1 r hr
          rw [hstep, hsuffix, hc]
          ring
        · have hstep : filterRowsAux W E S N sorted (r0 :: rs) seen acc
              = filterRowsAux W E S N sorted rs seen acc := by
            simp only [filterRowsAux, hp0]
            rw [if_pos hb0, if_neg hbrk]
          rw [hstep, ih seen acc hsort', hc]
          ring
      · have hc : rowContrib W E S N k r0 = if rowKey r0 = k then v0 else 0 := by
          rw [rowContrib_eq_some hp0, if_neg hb0]
        have hstep : filterRowsAux W E S N sorted (r0 :: rs) seen acc
            = filterRowsAux W E S N sorted rs true (addTile acc (rowKey r0) v0 (lo0, la0)) := by
          simp only [filterRowsAux, hp0]
          rw [if_neg hb0]
        rw [hstep, ih true _ hsort', lookupPop_addTile, hc]
        ring

/-- C8 (confirmed).  Duplicate-key aggregation: for every raw-text key
`k`, the population stored in the filtered tile mapping under `k` is the
sum of the values of exactly the retained source rows carrying `k` (each
row counted once, keys compared on the stripped raw text, lines
117-121).  The population is aggregated into the single tile of that key
and the engine only ever adds a tile's population in full
(`tile_pops[tile_idx]`, lines 172 and 188), never a fraction of it.
For a latitude-sorted declaration the source must actually be sorted;
with a full scan no hypothesis is needed. -/
theorem c8_duplicate_key_aggregation (W E S N : ℚ) (sorted : Bool) (rows : List Row)
    (k : Key) (hsort : sorted = false ∨ SortedByLat rows) :
    lookupPop (filterRows W E S N sorted rows) k
      = (rows.map (rowContrib W E S N k)).sum := by
  unfold filterRows
  rw [filterRowsAux_lookup W E S N sorted k rows false [] hsort]
  simp [lookupPop]

/-- Witness for C8: two rows with identical raw key and populations 5
and 7 aggregate to a single tile of population 12. -/
theorem c8_duplicate_key_aggregation_witness :
    (false = false ∨ SortedByLat
        [(⟨"1", "1", some 1, some 1, some 5⟩ : Row), ⟨"1", "1", some 1, some 1, some 7⟩]) ∧
      lookupPop
          (filterRows (-1) 3 (-1) 3 false
            [(⟨"1", "1", some 1, some 1, some 5⟩ : Row), ⟨"1", "1", some 1, some 1, some 7⟩])
          ("1", "1")
        = ([(⟨"1", "1", some 1, some 1, some 5⟩ : Row),
            ⟨"1", "1", some 1, some 1, some 7⟩].map (rowContrib (-1) 3 (-1) 3 ("1", "1"))).sum ∧
      lookupPop
          (filterRows (-1) 3 (-1) 3 false
            [(⟨"1", "1", some 1, some 1, some 5⟩ : Row), ⟨"1", "1", some 1, some 1, some 7⟩])
          ("1", "1") = 12 :=
  ⟨Or.inl rfl,
    c8_duplicate_key_aggregation (-1) 3 (-1) 3 false _ ("1", "1") (Or.inl rfl),
    by decide⟩

/-! Characterization of the engine's assignment totals. -/

theorem scaleLon_length (s : ℚ) (l : List (ℚ × ℚ)) : (scaleLon s l).length = l.length := by
  simp [scaleLon]

theorem tileCoords_length (tiles : List Tile) : (tileCoords tiles).length = tiles.length := by
  simp [tileCoords]

theorem list_sum_range (g : ℕ → ℚ) : ∀ n, ((List.range n).map g).sum = ∑ i in Finset.range n, g i := by
  intro n
  induction n with
  | zero => simp
  | succ m ih =>
    rw [List.range_succ, List.map_append, List.sum_append, Finset.sum_range_succ, ih]
    simp

theorem list_sum_filter (p : ℕ → Bool) (g : ℕ → ℚ) :
    ∀ l : List ℕ, ((l.filter p).map g).sum = (l.map (fun x => if p x then g x else 0)).sum := by
  intro l
  induction l with
  | nil => rfl
  | cons x xs ih => cases hp : p x <;> simp [List.filter_cons, hp, ih]

theorem getD_nonneg : ∀ (l : List ℚ), (∀ x ∈ l, 0 ≤ x) → ∀ j, 0 ≤ l.getD j 0 := by
  intro l
  induction l with
  | nil => intro _ j; simp
  | cons x xs ih =>
    intro h j
    cases j with
    | zero => exact h x (List.mem_cons_self _ _)
    | succ jj => exact ih (fun y hy => h y (List.mem_cons_of_mem _ hy)) jj

theorem popAt_nonneg {tiles : List Tile} (hpop : ∀ t ∈ tiles, 0 ≤ t.pop) (j : ℕ) :
    0 ≤ popAt tiles j := by
  unfold popAt
  refine getD_nonneg _ ?_ j
  intro x hx
  obtain ⟨t, ht, rfl⟩ := List.mem_map.mp hx
  exact hpop t ht

theorem pass1_snd_len (roadsS tilesS : List (ℚ × ℚ)) (pops : List ℚ) (far : Option ℚ) :
    (pass1 roadsS tilesS pops far).2.length = roadsS.length := by
  unfold pass1
  rw [engStep_foldl_snd_len]
  simp

/-- The population a pass-1 iteration adds to road `i`: the pop of its
claimed tile, or 0. -/
def claimVal (roadsS tilesS : List (ℚ × ℚ)) (pops : List ℚ) (far : Option ℚ) (i : ℕ) : ℚ :=
  match claimOf roadsS tilesS far i with
  | some t => pops.getD t 0
  | none => 0

/-- The population a pass-2 iteration adds for tile `j`: its own pop if
it reaches a road, or 0. -/
def pass2Val (roadsS tilesS : List (ℚ × ℚ)) (pops : List ℚ) (far : Option ℚ) (j : ℕ) : ℚ :=
  match roadOf roadsS tilesS far j with
  | some _ => pops.getD j 0
  | none => 0

theorem pass1_snd_sum (roadsS tilesS : List (ℚ × ℚ)) (pops : List ℚ) (far : Option ℚ) :
    (pass1 roadsS tilesS pops far).2.sum
      = ((List.range roadsS.length).map (claimVal roadsS tilesS pops far)).sum := by
  have hb : ∀ i ∈ List.range roadsS.length, ∀ y, pass1f roadsS tilesS pops far i = some y →
      y.2.1 < (List.replicate roadsS.length (0 : ℚ)).length := by
    intro i hi y hy
    rw [List.length_replicate]
    obtain ⟨t, _, rfl⟩ := Option.map_eq_some'.mp hy
    exact List.mem_range.mp hi
  have hv : ∀ i, stepVal (pass1f roadsS tilesS pops far) i
      = claimVal roadsS tilesS pops far i := by
    intro i
    unfold stepVal pass1f claimVal
    cases claimOf roadsS tilesS far i <;> simp
  unfold pass1
  rw [engStep_foldl_snd_sum _ _ _ _ hb, funext hv]
  simp only [List.sum_replicate, smul_zero, zero_add]

theorem pass2_snd_sum (roadsS tilesS : List (ℚ × ℚ)) (pops : List ℚ) (far : Option ℚ)
    (used1 : Finset ℕ) (assign : List ℚ) (hlen : roadsS.length ≤ assign.length) :
    (pass2 roadsS tilesS pops far used1 assign).2.sum
      = assign.sum
        + (((List.range tilesS.length).filter (fun j => decide (j ∉ used1))).map
            (pass2Val roadsS tilesS pops far)).sum := by
  have hb : ∀ j ∈ (List.range tilesS.length).filter (fun j => decide (j ∉ used1)),
      ∀ y, pass2f roadsS tilesS pops far j = some y → y.2.1 < assign.length := by
    intro j _ y hy
    obtain ⟨ri, hri, rfl⟩ := Option.map_eq_some'.mp hy
    exact lt_of_lt_of_le (roadOf_lt hri) hlen
  have hv : ∀ j, stepVal (pass2f roadsS tilesS pops far) j
      = pass2Val roadsS tilesS pops far j := by
    intro j
    unfold stepVal pass2f pass2Val
    cases roadOf roadsS tilesS far j <;> simp
  unfold pass2
  rw [engStep_foldl_snd_sum _ _ _ _ hb, funext hv]

theorem claimVal_eq_none {roadsS tilesS : List (ℚ × ℚ)} {pops : List ℚ} {far : Option ℚ}
    {i : ℕ} (hc : claimOf roadsS tilesS far i = none) :
    claimVal roadsS tilesS pops far i = 0 := by
  unfold claimVal
  rw [hc]

theorem claimVal_eq_some {roadsS tilesS : List (ℚ × ℚ)} {pops : List ℚ} {far : Option ℚ}
    {i t : ℕ} (hc : claimOf roadsS tilesS far i = some t) :
    claimVal roadsS tilesS pops far i = pops.getD t 0 := by
  unfold claimVal
  rw [hc]

theorem claims_fiber (roadsS tilesS : List (ℚ × ℚ)) (pops : List ℚ) (far : Option ℚ) :
    ((List.range roadsS.length).map (claimVal roadsS tilesS pops far)).sum
      = ∑ t in Finset.range tilesS.length,
          (claims roadsS tilesS far t : ℚ) * pops.getD t 0 := by
  rw [list_sum_range]
  have h1 : ∑ i in Finset.range roadsS.length, claimVal roadsS tilesS pops far i
      = ∑ i in (Finset.range roadsS.length).filter
            (fun i => (claimOf roadsS tilesS far i).isSome = true),
          claimVal roadsS tilesS pops far i := by
    refine (Finset.sum_filter_of_ne ?_).symm
    intro i _ hne
    cases hc : claimOf roadsS tilesS far i
    · exact absurd (claimVal_eq_none hc) hne
    · simp [hc]
  rw [h1, ← Finset.sum_fiberwise_of_maps_to
    (g := fun i => (claimOf roadsS tilesS far i).getD 0)
    (t := Finset.range tilesS.length) ?_]
  · refine Finset.sum_congr rfl ?_
    intro t _
    have hfib : ((Finset.range roadsS.length).filter
          (fun i => (claimOf roadsS tilesS far i).isSome = true)).filter
            (fun i => (claimOf roadsS tilesS far i).getD 0 = t)
        = (Finset.range roadsS.length).filter
            (fun i => claimOf roadsS tilesS far i = some t) := by
      rw [Finset.filter_filter]
      refine Finset.filter_congr ?_
      intro i _
      cases hc : claimOf roadsS tilesS far i <;> simp [hc]
    rw [hfib]
    have hval : ∀ i ∈ (Finset.range roadsS.length).filter
          (fun i => claimOf roadsS tilesS far i = some t),
        claimVal roadsS tilesS pops far i = pops.getD t 0 := by
      intro i hi
      rw [Finset.mem_filter] at hi
      exact claimVal_eq_some hi.2
    rw [Finset.sum_congr rfl hval, Finset.sum_const, claims, nsmul_eq_mul]
  · intro i hi
    rw [Finset.mem_filter] at hi
    obtain ⟨t, ht⟩ := Option.isSome_iff_exists.mp hi.2
    simp only [ht, Option.getD_some, Finset.mem_range]
    exact claimOf_lt ht

/-- Per-tile contribution to the total assigned population: the tile's
population once per pass-1 claiming road, plus once more when it is
picked up in pass 2. -/
def contribAt (centers : List (ℚ × ℚ)) (tiles : List Tile) (far : Option ℚ) (s : ℚ)
    (t : ℕ) : ℚ :=
  (claims (scaleLon s centers) (scaleLon s (tileCoords tiles)) far t : ℚ) * popAt tiles t
    + if claims (scaleLon s centers) (scaleLon s (tileCoords tiles)) far t = 0
          ∧ (roadOf (scaleLon s centers) (scaleLon s (tileCoords tiles)) far t).isSome = true
      then popAt tiles t else 0

theorem engine_used1_eq (centers : List (ℚ × ℚ)) (tiles : List Tile) (far : Option ℚ)
    (s : ℚ) :
    (get_density_fast_engine centers tiles far s).used1
      = (Finset.range tiles.length).filter
          (fun t => 0 < claims (scaleLon s centers) (scaleLon s (tileCoords tiles)) far t) := by
  simp only [get_density_fast_engine]
  rw [pass1_fst_eq]
  rw [scaleLon_length, tileCoords_length]

theorem engine_used2_eq (centers : List (ℚ × ℚ)) (tiles : List Tile) (far : Option ℚ)
    (s : ℚ) :
    (get_density_fast_engine centers tiles far s).used2
      = (Finset.range tiles.length).filter
          (fun j => j ∉ (get_density_fast_engine centers tiles far s).used1
            ∧ (roadOf (scaleLon s centers) (scaleLon s (tileCoords tiles)) far j).isSome
                = true) := by
  simp only [get_density_fast_engine]
  rw [pass2_fst_eq]
  rw [scaleLon_length, tileCoords_length]

theorem engine_assign_sum (centers : List (ℚ × ℚ)) (tiles : List Tile) (far : Option ℚ)
    (s : ℚ) :
    (get_density_fast_engine centers tiles far s).assign.sum
      = ∑ t in Finset.range tiles.length, contribAt centers tiles far s t := by
  have hassign : (get_density_fast_engine centers tiles far s).assign
      = (pass2 (scaleLon s centers) (scaleLon s (tileCoords tiles)) (tiles.map Tile.pop) far
          (pass1 (scaleLon s centers) (scaleLon s (tileCoords tiles)) (tiles.map Tile.pop) far).1
          (pass1 (scaleLon s centers) (scaleLon s (tileCoords tiles)) (tiles.map Tile.pop) far).2).2 := by
    simp only [get_density_fast_engine]
  rw [hassign, pass2_snd_sum _ _ _ _ _ _ (by rw [pass1_snd_len]), pass1_snd_sum, claims_fiber,
    list_sum_filter, list_sum_range, ← Finset.sum_add_distrib, scaleLon_length, tileCoords_length]
  refine Finset.sum_congr rfl ?_
  intro t ht
  unfold contribAt
  have hmem : t ∈ (pass1 (scaleLon s centers) (scaleLon s (tileCoords tiles))
        (tiles.map Tile.pop) far).1
      ↔ 0 < claims (scaleLon s centers) (scaleLon s (tileCoords tiles)) far t := by
    rw [pass1_fst_eq, Finset.mem_filter, Finset.mem_range, scaleLon_length, tileCoords_length]
    constructor
    · exact And.right
    · intro hp
      exact ⟨Finset.mem_range.mp ht, hp⟩
  have hPA : popAt tiles t = (tiles.map Tile.pop).getD t 0 := rfl
  by_cases hc0 : claims (scaleLon s centers) (scaleLon s (tileCoords tiles)) far t = 0
  · rw [hc0]
    cases hro : roadOf (scaleLon s centers) (scaleLon s (tileCoords tiles)) far t with
    | none => simp [hmem, hc0, hro, hPA, pass2Val]
    | some ri => simp [hmem, hc0, hro, hPA, pass2Val]
  · have hpos : 0 < claims (scaleLon s centers) (scaleLon s (tileCoords tiles)) far t :=
      Nat.pos_of_ne_zero hc0
    cases hro : roadOf (scaleLon s centers) (scaleLon s (tileCoords tiles)) far t with
    | none => simp [hmem, hc0, hpos, hro, hPA, pass2Val]
    | some ri => simp [hmem, hc0, hpos, hro, hPA, pass2Val]

/-! Threshold monotonicity. -/

theorem claimOf_eq_none_of {roadsS tilesS : List (ℚ × ℚ)} {far : Option ℚ} {i : ℕ}
    (hn : nearest (roadsS.getD i (0, 0)) tilesS = none) :
    claimOf roadsS tilesS far i = none := by
  unfold claimOf
  rw [hn]

theorem claimOf_eq_some_of {roadsS tilesS : List (ℚ × ℚ)} {far : Option ℚ} {i ti : ℕ}
    {d : ℚ} (hn : nearest (roadsS.getD i (0, 0)) tilesS = some (ti, d)) :
    claimOf roadsS tilesS far i = if rejected far d = true then none else some ti := by
  unfold claimOf
  rw [hn]

theorem roadOf_eq_none_of {roadsS tilesS : List (ℚ × ℚ)} {far : Option ℚ} {j : ℕ}
    (hn : nearest (tilesS.getD j (0, 0)) roadsS = none) :
    roadOf roadsS tilesS far j = none := by
  unfold roadOf
  rw [hn]

theorem roadOf_eq_some_of {roadsS tilesS : List (ℚ × ℚ)} {far : Option ℚ} {j ri : ℕ}
    {d : ℚ} (hn : nearest (tilesS.getD j (0, 0)) roadsS = some (ri, d)) :
    roadOf roadsS tilesS far j = if rejected far d = true then none else some ri := by
  unfold roadOf
  rw [hn]

theorem distGT_mono {d t' t : ℚ} (h0 : 0 ≤ t') (ht : t' ≤ t)
    (h : distGT d t' = false) : distGT d t = false := by
  unfold distGT at *
  rw [if_neg (not_lt.mpr h0)] at h
  rw [if_neg (not_lt.mpr (le_trans h0 ht))]
  simp only [decide_eq_false_iff_not, not_lt] at *
  calc d ≤ t' ^ 2 := h
    _ ≤ t ^ 2 := pow_le_pow_left₀ h0 ht 2

theorem rejected_mono {t' t d : ℚ} (h0 : 0 ≤ t') (ht : t' ≤ t)
    (h : rejected (some t') d = false) : rejected (some t) d = false :=
  distGT_mono h0 ht h

theorem claimOf_mono {roadsS tilesS : List (ℚ × ℚ)} {t' t : ℚ} {i x : ℕ}
    (h0 : 0 ≤ t') (ht : t' ≤ t)
    (h : claimOf roadsS tilesS (some t') i = some x) :
    claimOf roadsS tilesS (some t) i = some x := by
  cases hn : nearest (roadsS.getD i (0, 0)) tilesS with
  | none => rw [claimOf_eq_none_of hn] at h; exact Option.noConfusion h
  | some td =>
    obtain ⟨ti, d⟩ := td
    rw [claimOf_eq_some_of hn] at h
    rw [claimOf_eq_some_of hn]
    by_cases hr : rejected (some t') d = true
    · rw [if_pos hr] at h; exact Option.noConfusion h
    · rw [if_neg hr] at h
      have hf : rejected (some t') d = false := by
        revert hr; cases rejected (some t') d <;> simp
      rw [rejected_mono h0 ht hf]
      simpa using h

theorem roadOf_mono {roadsS tilesS : List (ℚ × ℚ)} {t' t : ℚ} {j x : ℕ}
    (h0 : 0 ≤ t') (ht : t' ≤ t)
    (h : roadOf roadsS tilesS (some t') j = some x) :
    roadOf roadsS tilesS (some t) j = some x := by
  cases hn : nearest (tilesS.getD j (0, 0)) roadsS with
  | none => rw [roadOf_eq_none_of hn] at h; exact Option.noConfusion h
  | some td =>
    obtain ⟨ri, d⟩ := td
    rw [roadOf_eq_some_of hn] at h
    rw [roadOf_eq_some_of hn]
    by_cases hr : rejected (some t') d = true
    · rw [if_pos hr] at h; exact Option.noConfusion h
    · rw [if_neg hr] at h
      have hf : rejected (some t') d = false := by
        revert hr; cases rejected (some t') d <;> simp
      rw [rejected_mono h0 ht hf]
      simpa using h

theorem claims_mono (roadsS tilesS : List (ℚ × ℚ)) {t' t : ℚ}
    (h0 : 0 ≤ t') (ht : t' ≤ t) (x : ℕ) :
    claims roadsS tilesS (some t') x ≤ claims roadsS tilesS (some t) x := by
  unfold claims
  refine Finset.card_le_card ?_
  intro i hi
  rw [Finset.mem_filter] at *
  exact ⟨hi.1, claimOf_mono h0 ht hi.2⟩

theorem farThreshDeg_of_ne {m : ℚ} (h : m ≠ 0) :
    farThreshDeg (some m) = some (m / 111000) := by
  simp [farThreshDeg, h]

theorem engine_mono_core (centers : List (ℚ × ℚ)) (tiles : List Tile) (s : ℚ)
    {far' far : ℚ} (h0 : 0 ≤ far') (ht : far' ≤ far)
    (hpop : ∀ t ∈ tiles, 0 ≤ t.pop) :
    usedCount (get_density_fast_engine centers tiles (some far') s)
        ≤ usedCount (get_density_fast_engine centers tiles (some far) s)
      ∧ (get_density_fast_engine centers tiles (some far') s).assign.sum
        ≤ (get_density_fast_engine centers tiles (some far) s).assign.sum := by
  constructor
  · unfold usedCount
    have hdisj' := engine_used_disjoint centers tiles (some far') s
    have hdisj := engine_used_disjoint centers tiles (some far) s
    rw [← Finset.card_union_of_disjoint hdisj', ← Finset.card_union_of_disjoint hdisj]
    refine Finset.card_le_card ?_
    intro x hx
    rw [Finset.mem_union] at *
    rcases hx with hx | hx
    · left
      rw [engine_used1_eq] at *
      rw [Finset.mem_filter] at *
      exact ⟨hx.1, lt_of_lt_of_le hx.2 (claims_mono _ _ h0 ht x)⟩
    · rw [engine_used2_eq, Finset.mem_filter] at hx
      obtain ⟨hxr, _, hsome⟩ := hx
      obtain ⟨ri, hri⟩ := Option.isSome_iff_exists.mp hsome
      have hri2 := roadOf_mono h0 ht hri
      by_cases hx1 : x ∈ (get_density_fast_engine centers tiles (some far) s).used1
      · exact Or.inl hx1
      · right
        rw [engine_used2_eq, Finset.mem_filter]
        exact ⟨hxr, hx1, by simp [hri2]⟩
  · rw [engine_assign_sum, engine_assign_sum]
    refine Finset.sum_le_sum ?_
    intro t _
    unfold contribAt
    have hP : 0 ≤ popAt tiles t := popAt_nonneg hpop t
    have hcc : claims (scaleLon s centers) (scaleLon s (tileCoords tiles)) (some far') t
        ≤ claims (scaleLon s centers) (scaleLon s (tileCoords tiles)) (some far) t :=
      claims_mono _ _ h0 ht t
    have hccQ : ((claims (scaleLon s centers) (scaleLon s (tileCoords tiles)) (some far') t : ℕ) : ℚ)
        ≤ ((claims (scaleLon s centers) (scaleLon s (tileCoords tiles)) (some far) t : ℕ) : ℚ) := by
      exact_mod_cast hcc
    have hite2 : 0 ≤ (if claims (scaleLon s centers) (scaleLon s (tileCoords tiles)) (some far) t = 0
          ∧ (roadOf (scaleLon s centers) (scaleLon s (tileCoords tiles)) (some far) t).isSome = true
        then popAt tiles t else 0) := by
      by_cases h : claims (scaleLon s centers) (scaleLon s (tileCoords tiles)) (some far) t = 0
          ∧ (roadOf (scaleLon s centers) (scaleLon s (tileCoords tiles)) (some far) t).isSome = true
      · rw [if_pos h]; exact hP
      · rw [if_neg h]
    by_cases hc0 : claims (scaleLon s centers) (scaleLon s (tileCoords tiles)) (some far') t = 0
    · have hcast : ((claims (scaleLon s centers) (scaleLon s (tileCoords tiles)) (some far') t : ℕ) : ℚ) = 0 := by
        rw [hc0]; norm_num
      rw [hcast, zero_mul, zero_add]
      by_cases hsome' : (roadOf (scaleLon s centers) (scaleLon s (tileCoords tiles)) (some far') t).isSome = true
      · rw [if_pos ⟨hc0, hsome'⟩]
        obtain ⟨ri, hri⟩ := Option.isSome_iff_exists.mp hsome'
        have hsome := roadOf_mono h0 ht hri
        by_cases hcF : claims (scaleLon s centers) (scaleLon s (tileCoords tiles)) (some far) t = 0
        · rw [if_pos ⟨hcF, by simp [hsome]⟩]
          have hcastF : ((claims (scaleLon s centers) (scaleLon s (tileCoords tiles)) (some far) t : ℕ) : ℚ) = 0 := by
            rw [hcF]; norm_num
          rw [hcastF, zero_mul, zero_add]
        · have h1 : (1 : ℚ) ≤ (claims (scaleLon s centers) (scaleLon s (tileCoords tiles)) (some far) t : ℚ) := by
            exact_mod_cast Nat.one_le_iff_ne_zero.mpr hcF
          have hge : popAt tiles t
              ≤ (claims (scaleLon s centers) (scaleLon s (tileCoords tiles)) (some far) t : ℚ)
                  * popAt tiles t := le_mul_of_one_le_left hP h1
          linarith
      · rw [if_neg (fun hcon => hsome' hcon.2)]
        have := mul_nonneg (by positivity :
          (0:ℚ) ≤ (claims (scaleLon s centers) (scaleLon s (tileCoords tiles)) (some far) t : ℚ)) hP
        linarith
    · rw [if_neg (fun hcon => hc0 hcon.1)]
      have h1 := mul_le_mul_of_nonneg_right hccQ hP
      linarith

/-! C6: threshold monotonicity. -/

/-- C6 (corrected).  Restricted to positive thresholds, monotonicity
holds: with `0 < m' ≤ m` and nonnegative tile populations, the engine at
threshold `m'` uses at most as many tiles (pass 1 plus pass 2, the count
the source reports at line 198) and assigns at most as much total
population as at threshold `m`.  The restriction is forced by
`c6_threshold_monotonicity_cex`: the code converts the threshold with
`far_thresh_m * deg_per_m if far_thresh_m else None` (line 130), so the
smaller threshold 0 disables thresholding entirely and assigns more than
any positive threshold. -/
theorem c6_threshold_monotonicity_amended (centers : List (ℚ × ℚ)) (tiles : List Tile)
    (s m' m : ℚ) (hpop : ∀ t ∈ tiles, 0 ≤ t.pop) (h0 : 0 < m') (hm : m' ≤ m) :
    usedCount (get_density_fast_engine centers tiles (farThreshDeg (some m')) s)
        ≤ usedCount (get_density_fast_engine centers tiles (farThreshDeg (some m)) s)
      ∧ (get_density_fast_engine centers tiles (farThreshDeg (some m')) s).assign.sum
        ≤ (get_density_fast_engine centers tiles (farThreshDeg (some m)) s).assign.sum := by
  have hm0 : 0 < m := lt_of_lt_of_le h0 hm
  rw [farThreshDeg_of_ne (ne_of_gt h0), farThreshDeg_of_ne (ne_of_gt hm0)]
  refine engine_mono_core centers tiles s ?_ ?_ hpop
  · positivity
  · gcongr

/-- Counterexample to C6 as stated: one road at `(1, 1)`, one tile at
`(1, 2)` (one degree, about 111 km, away), population 10.  At
`distanceThresholdMeters = 100` both passes reject the tile and the
total assigned population is 0; at the smaller threshold 0 the falsy
conversion of line 130 disables thresholding and the road receives 10 —
decreasing the threshold increased the total population assigned. -/
theorem c6_threshold_monotonicity_cex :
    sumPD (get_density true 1 [(⟨none, some 1, none, none, some 1, none, none⟩ : NodeData)]
        [⟨"1", "2", some 1, some 2, some 10⟩] 2 false (some 0)) = 10 ∧
      sumPD (get_density true 1 [(⟨none, some 1, none, none, some 1, none, none⟩ : NodeData)]
        [⟨"1", "2", some 1, some 2, some 10⟩] 2 false (some 100)) = 0 :=
  ⟨by decide, by decide⟩

/-- Witness for C6 (amended) at a concrete input: thresholds 50 and 100
meters, one road, one tile of population 10. -/
theorem c6_threshold_monotonicity_amended_witness :
    ((∀ t ∈ [(⟨("1", "2"), 10, 1, 2⟩ : Tile)], 0 ≤ t.pop) ∧ (0 : ℚ) < 50 ∧ (50 : ℚ) ≤ 100) ∧
      (usedCount (get_density_fast_engine [((1 : ℚ), (1 : ℚ))] [⟨("1", "2"), 10, 1, 2⟩]
            (farThreshDeg (some 50)) 1)
          ≤ usedCount (get_density_fast_engine [((1 : ℚ), (1 : ℚ))] [⟨("1", "2"), 10, 1, 2⟩]
            (farThreshDeg (some 100)) 1)
        ∧ (get_density_fast_engine [((1 : ℚ), (1 : ℚ))] [⟨("1", "2"), 10, 1, 2⟩]
            (farThreshDeg (some 50)) 1).assign.sum
          ≤ (get_density_fast_engine [((1 : ℚ), (1 : ℚ))] [⟨("1", "2"), 10, 1, 2⟩]
            (farThreshDeg (some 100)) 1).assign.sum) :=
  ⟨⟨by decide, by decide, by decide⟩,
    c6_threshold_monotonicity_amended [((1 : ℚ), (1 : ℚ))] [⟨("1", "2"), 10, 1, 2⟩] 1 50 100
      (by decide) (by decide) (by decide)⟩

/-! C1: conservation. -/

/-- C1 (corrected).  When no tile is claimed by two different roads in
pass 1 (`claims ≤ 1` on every tile index), the total assigned population
equals the sum of the populations of the tiles used in pass 1 or pass 2,
each counted once — the conservation law as the spec states it.  Without
that hypothesis pass 1 double-counts shared nearest tiles
(`c1_conservation_cex`). -/
theorem c1_conservation_amended (centers : List (ℚ × ℚ)) (tiles : List Tile)
    (far : Option ℚ) (s : ℚ)
    (hinj : ∀ t ∈ Finset.range tiles.length,
      claims (scaleLon s centers) (scaleLon s (tileCoords tiles)) far t ≤ 1) :
    (get_density_fast_engine centers tiles far s).assign.sum
      = ∑ t in (get_density_fast_engine centers tiles far s).used1
            ∪ (get_density_fast_engine centers tiles far s).used2,
          popAt tiles t := by
  rw [engine_assign_sum, Finset.sum_union (engine_used_disjoint centers tiles far s),
    engine_used1_eq, engine_used2_eq, Finset.sum_filter, Finset.sum_filter,
    ← Finset.sum_add_distrib]
  refine Finset.sum_congr rfl ?_
  intro t ht
  unfold contribAt
  have hmemu1 : t ∈ (get_density_fast_engine centers tiles far s).used1
      ↔ 0 < claims (scaleLon s centers) (scaleLon s (tileCoords tiles)) far t := by
    rw [engine_used1_eq, Finset.mem_filter]
    constructor
    · exact And.right
    · intro hp; exact ⟨ht, hp⟩
  rcases Nat.le_one_iff_eq_zero_or_eq_one.mp (hinj t ht) with hc | hc
  · have hcast : ((claims (scaleLon s centers) (scaleLon s (tileCoords tiles)) far t : ℕ) : ℚ) = 0 := by
      rw [hc]; norm_num
    rw [hcast, zero_mul, zero_add]
    have hnu : t ∉ (get_density_fast_engine centers tiles far s).used1 := by
      rw [hmemu1, hc]
      simp
    have hn0 : ¬0 < claims (scaleLon s centers) (scaleLon s (tileCoords tiles)) far t := by
      rw [hc]
      simp
    rw [if_neg hn0]
    by_cases hs : (roadOf (scaleLon s centers) (scaleLon s (tileCoords tiles)) far t).isSome = true
    · rw [if_pos ⟨hc, hs⟩, if_pos ⟨hnu, hs⟩]
      simp
    · rw [if_neg (fun hcon => hs hcon.2), if_neg (fun hcon => hs hcon.2)]
      simp
  · have hu1 : t ∈ (get_density_fast_engine centers tiles far s).used1 := by
      rw [hmemu1, hc]
      simp
    have hcast : ((claims (scaleLon s centers) (scaleLon s (tileCoords tiles)) far t : ℕ) : ℚ) = 1 := by
      rw [hc]; norm_num
    rw [hcast, one_mul]
    rw [if_neg (fun hcon => by rw [hc] at hcon; exact Nat.one_ne_zero hcon.1)]
    rw [if_pos (by rw [hc]; norm_num : 0 < claims (scaleLon s centers) (scaleLon s (tileCoords tiles)) far t)]
    rw [if_neg (fun hcon => hcon.1 hu1)]

/-- Road graph of the C1 counterexample: two roads at `(1, 1)` and
`(1, 3)`. -/
def c1cexG : List NodeData :=
  [⟨none, some 1, none, none, some 1, none, none⟩,
    ⟨none, some 1, none, none, some 3, none, none⟩]

/-- Row source of the C1 counterexample: one tile at `(1, 2)` with
population 10. -/
def c1cexRows : List Row :=
  [⟨"1", "2", some 1, some 2, some 10⟩]

/-- Counterexample to C1 as stated: both roads have the single tile as
their nearest tile, so pass 1 adds its population to both accumulators.
After the run the sum of `pop_density` over the road nodes is 20, while
the sum of the populations of the tiles used in pass 1 or pass 2,
counting each used tile once, is 10. -/
theorem c1_conservation_cex :
    sumPD (get_density true 1 c1cexG c1cexRows 2 false none) = 20 ∧
      (∑ t in (get_density_fast_engine (stageCenters c1cexG)
              (stageTiles c1cexG c1cexRows 2 false) (farThreshDeg none) 1).used1
            ∪ (get_density_fast_engine (stageCenters c1cexG)
              (stageTiles c1cexG c1cexRows 2 false) (farThreshDeg none) 1).used2,
          popAt (stageTiles c1cexG c1cexRows 2 false) t) = 10 :=
  ⟨by decide, by decide⟩

/-- Witness for C1 (amended) at a concrete input: one road, one tile, so
pass 1 claims are trivially injective. -/
theorem c1_conservation_amended_witness :
    (∀ t ∈ Finset.range [(⟨("1", "2"), 10, 1, 2⟩ : Tile)].length,
        claims (scaleLon 1 [((1 : ℚ), (1 : ℚ))])
          (scaleLon 1 (tileCoords [⟨("1", "2"), 10, 1, 2⟩])) none t ≤ 1) ∧
      (get_density_fast_engine [((1 : ℚ), (1 : ℚ))] [⟨("1", "2"), 10, 1, 2⟩] none 1).assign.sum
        = ∑ t in (get_density_fast_engine [((1 : ℚ), (1 : ℚ))]
                [⟨("1", "2"), 10, 1, 2⟩] none 1).used1
              ∪ (get_density_fast_engine [((1 : ℚ), (1 : ℚ))]
                [⟨("1", "2"), 10, 1, 2⟩] none 1).used2,
            popAt [⟨("1", "2"), 10, 1, 2⟩] t :=
  ⟨by decide,
    c1_conservation_amended [((1 : ℚ), (1 : ℚ))] [⟨("1", "2"), 10, 1, 2⟩] none 1 (by decide)⟩

/-! C4: fast KD-tree path versus linear-scan fallback. -/

theorem scaleLon_one (l : List (ℚ × ℚ)) : scaleLon 1 l = l := by
  unfold scaleLon
  have h : (fun p : ℚ × ℚ => (p.1 * 1, p.2)) = fun p => p := by
    funext p
    simp
  rw [h, List.map_id']

theorem keyAt_mem : ∀ (tiles : List Tile) (j : ℕ), j < tiles.length →
    keyAt tiles j ∈ tiles.map Tile.key := by
  intro tiles
  induction tiles with
  | nil => intro j h; simp at h
  | cons t ts ih =>
    intro j h
    cases j with
    | zero => exact List.mem_cons_self _ _
    | succ jj =>
      have hke : keyAt (t :: ts) (jj + 1) = keyAt ts jj := rfl
      rw [List.map_cons, hke]
      exact List.mem_cons_of_mem _ (ih jj (by simpa using h))

theorem lookupPop_keyAt : ∀ (tiles : List Tile), (tiles.map Tile.key).Nodup →
    ∀ j, j < tiles.length →
      lookupPop tiles (keyAt tiles j) = (tiles.map Tile.pop).getD j 0 := by
  intro tiles
  induction tiles with
  | nil => intro _ j h; simp at h
  | cons t ts ih =>
    intro hnd j hj
    rw [List.map_cons, List.nodup_cons] at hnd
    cases j with
    | zero =>
      show lookupPop (t :: ts) t.key = _
      unfold lookupPop
      rw [List.find?_cons_of_pos _ (by simp)]
      rfl
    | succ jj =>
      have hja : jj < ts.length := by simpa using hj
      have hke : keyAt (t :: ts) (jj + 1) = keyAt ts jj := rfl
      rw [hke]
      have hne : ¬t.key = keyAt ts jj := by
        intro h
        exact hnd.1 (h ▸ keyAt_mem ts jj hja)
      unfold lookupPop
      rw [List.find?_cons_of_neg _ (by simp [hne])]
      have hrec := ih hnd.2 jj hja
      unfold lookupPop at hrec
      exact hrec

theorem keyAt_inj : ∀ (tiles : List Tile), (tiles.map Tile.key).Nodup →
    ∀ i j, i < tiles.length → j < tiles.length → keyAt tiles i = keyAt tiles j → i = j := by
  intro tiles
  induction tiles with
  | nil => intro _ i j hi; simp at hi
  | cons t ts ih =>
    intro hnd i j hi hj heq
    rw [List.map_cons, List.nodup_cons] at hnd
    cases i with
    | zero =>
      cases j with
      | zero => rfl
      | succ jj =>
        exfalso
        have hja : jj < ts.length := by simpa using hj
        have heq' : t.key = keyAt ts jj := heq
        have hx := keyAt_mem ts jj hja
        rw [← heq'] at hx
        exact hnd.1 hx
    | succ ii =>
      cases j with
      | zero =>
        exfalso
        have hia : ii < ts.length := by simpa using hi
        have heq' : keyAt ts ii = t.key := heq
        have hx := keyAt_mem ts ii hia
        rw [heq'] at hx
        exact hnd.1 hx
      | succ jj =>
        have := ih hnd.2 ii jj (by simpa using hi) (by simpa using hj) heq
        omega

theorem engStep_foldl_snd_congr {κ₁ κ₂ : Type} [DecidableEq κ₁] [DecidableEq κ₂]
    (f₁ : ℕ → Option (κ₁ × ℕ × ℚ)) (f₂ : ℕ → Option (κ₂ × ℕ × ℚ)) :
    ∀ (l : List ℕ), (∀ i ∈ l, (f₁ i).map (fun y => y.2) = (f₂ i).map (fun y => y.2)) →
    ∀ (S₁ : Finset κ₁) (S₂ : Finset κ₂) (a : List ℚ),
      (l.foldl (engStep f₁) (S₁, a)).2 = (l.foldl (engStep f₂) (S₂, a)).2 := by
  intro l
  induction l with
  | nil => intro _ S₁ S₂ a; rfl
  | cons i l ih =>
    intro hf S₁ S₂ a
    have hi := hf i (List.mem_cons_self _ _)
    cases h1 : f₁ i with
    | none =>
      rw [h1] at hi
      cases h2 : f₂ i with
      | none =>
        have e1 : engStep f₁ (S₁, a) i = (S₁, a) := by simp [engStep, h1]
        have e2 : engStep f₂ (S₂, a) i = (S₂, a) := by simp [engStep, h2]
        simp only [List.foldl_cons, e1, e2]
        exact ih (fun j hj => hf j (List.mem_cons_of_mem _ hj)) S₁ S₂ a
      | some y2 => rw [h2] at hi; simp at hi
    | some y1 =>
      rw [h1] at hi
      cases h2 : f₂ i with
      | none => rw [h2] at hi; simp at hi
      | some y2 =>
        rw [h2] at hi
        simp only [Option.map_some'] at hi
        have h22 : y1.2 = y2.2 := Option.some.inj hi
        have e1 : engStep f₁ (S₁, a) i = (insert y1.1 S₁, addAt a y1.2.1 y1.2.2) := by
          simp [engStep, h1]
        have e2 : engStep f₂ (S₂, a) i = (insert y2.1 S₂, addAt a y2.2.1 y2.2.2) := by
          simp [engStep, h2]
        simp only [List.foldl_cons, e1, e2]
        rw [show y2.2.1 = y1.2.1 from (congrArg Prod.fst h22).symm,
          show y2.2.2 = y1.2.2 from (congrArg Prod.snd h22).symm]
        exact ih (fun j hj => hf j (List.mem_cons_of_mem _ hj)) _ _ _

theorem setFold_image {κ₁ κ₂ : Type} [DecidableEq κ₁] [DecidableEq κ₂] (g : κ₁ → κ₂)
    (f₁ : ℕ → Option (κ₁ × ℕ × ℚ)) (f₂ : ℕ → Option (κ₂ × ℕ × ℚ)) :
    ∀ (l : List ℕ), (∀ i ∈ l, f₂ i = (f₁ i).map (fun y => (g y.1, y.2))) →
    ∀ (S : Finset κ₁), setFold f₂ l (S.image g) = (setFold f₁ l S).image g := by
  intro l
  induction l with
  | nil => intro _ S; rfl
  | cons i l ih =>
    intro hf S
    have hi := hf i (List.mem_cons_self _ _)
    cases h1 : f₁ i with
    | none =>
      rw [h1] at hi
      simp only [Option.map_none'] at hi
      have e1 : setFold f₁ (i :: l) S = setFold f₁ l S := by simp [setFold, h1]
      have e2 : setFold f₂ (i :: l) (S.image g) = setFold f₂ l (S.image g) := by
        simp [setFold, hi]
      rw [e1, e2]
      exact ih (fun j hj => hf j (List.mem_cons_of_mem _ hj)) S
    | some y =>
      rw [h1] at hi
      simp only [Option.map_some'] at hi
      have e1 : setFold f₁ (i :: l) S = setFold f₁ l (insert y.1 S) := by simp [setFold, h1]
      have e2 : setFold f₂ (i :: l) (S.image g)
          = setFold f₂ l (insert (g y.1) (S.image g)) := by simp [setFold, hi]
      rw [e1, e2, ← Finset.image_insert]
      exact ih (fun j hj => hf j (List.mem_cons_of_mem _ hj)) (insert y.1 S)

/-- C4 (corrected).  When the longitude scale factor is 1 (the fast
path's `cos(avg_lat)` at an equatorial bounding box), the KD-tree path
and the linear-scan fallback produce identical per-road assignment
totals on any tile mapping with distinct keys (which the row filter
always produces).  The counterexample `c4_fallback_cex` shows they are
not equivalent in general: the fast path measures distances in
cos-scaled degrees (lines 151-155), the fallback in raw degrees (lines
215 and 236), so near-threshold decisions differ away from the
equator. -/
theorem c4_fallback_amended (centers : List (ℚ × ℚ)) (tiles : List Tile) (far : Option ℚ)
    (hkeys : (tiles.map Tile.key).Nodup) :
    (get_density_fast_engine centers tiles far 1).assign
      = (get_density_slow_engine centers tiles far).assign := by
  have hs1 : scaleLon 1 centers = centers := scaleLon_one centers
  have hs2 : scaleLon 1 (tileCoords tiles) = tileCoords tiles := scaleLon_one _
  have hrel1 : ∀ i ∈ List.range centers.length,
      pass1fS centers tiles far i
        = (pass1f centers (tileCoords tiles) (tiles.map Tile.pop) far i).map
            (fun y => (keyAt tiles y.1, y.2)) := by
    intro i _
    unfold pass1fS pass1f
    cases hc : claimOf centers (tileCoords tiles) far i with
    | none => simp
    | some t =>
      have htl : t < tiles.length := by
        have := claimOf_lt hc
        rwa [tileCoords_length] at this
      simp [lookupPop_keyAt tiles hkeys t htl]
  have hmap2 : ∀ i ∈ List.range centers.length,
      (pass1f centers (tileCoords tiles) (tiles.map Tile.pop) far i).map (fun y => y.2)
        = (pass1fS centers tiles far i).map (fun y => y.2) := by
    intro i hi
    rw [hrel1 i hi]
    cases pass1f centers (tileCoords tiles) (tiles.map Tile.pop) far i <;> simp
  have hfast : (get_density_fast_engine centers tiles far 1).assign
      = (pass2 centers (tileCoords tiles) (tiles.map Tile.pop) far
          (pass1 centers (tileCoords tiles) (tiles.map Tile.pop) far).1
          (pass1 centers (tileCoords tiles) (tiles.map Tile.pop) far).2).2 := by
    simp only [get_density_fast_engine, hs1, hs2]
  have hslow : (get_density_slow_engine centers tiles far).assign
      = (pass2S centers tiles far (pass1S centers tiles far).1
          (pass1S centers tiles far).2).2 := by
    simp only [get_density_slow_engine]
  have ha1 : (pass1 centers (tileCoords tiles) (tiles.map Tile.pop) far).2
      = (pass1S centers tiles far).2 := by
    unfold pass1 pass1S
    exact engStep_foldl_snd_congr _ _ _ hmap2 _ _ _
  have hu1 : (pass1S centers tiles far).1
      = ((pass1 centers (tileCoords tiles) (tiles.map Tile.pop) far).1).image (keyAt tiles) := by
    unfold pass1 pass1S
    rw [engStep_foldl_fst, engStep_foldl_fst]
    have he : (∅ : Finset Key) = (∅ : Finset ℕ).image (keyAt tiles) := by simp
    rw [he]
    exact setFold_image (keyAt tiles) _ _ _ hrel1 ∅
  have hu1sub : ∀ x ∈ (pass1 centers (tileCoords tiles) (tiles.map Tile.pop) far).1,
      x < tiles.length := by
    intro x hx
    obtain ⟨i, _, hc⟩ := (mem_pass1_fst _ _ _ _ x).mp hx
    have := claimOf_lt hc
    rwa [tileCoords_length] at this
  have hlist : (List.range (tileCoords tiles).length).filter
        (fun j => decide (j ∉ (pass1 centers (tileCoords tiles) (tiles.map Tile.pop) far).1))
      = (List.range tiles.length).filter
        (fun j => decide (keyAt tiles j ∉ (pass1S centers tiles far).1)) := by
    rw [tileCoords_length]
    refine List.filter_congr ?_
    intro j hj
    have hjlt : j < tiles.length := List.mem_range.mp hj
    rw [hu1, decide_eq_decide]
    constructor
    · intro hnj hmem
      obtain ⟨x, hx, hxk⟩ := Finset.mem_image.mp hmem
      have hxe := keyAt_inj tiles hkeys x j (hu1sub x hx) hjlt hxk
      exact hnj (hxe ▸ hx)
    · intro hnk hmem
      exact hnk (Finset.mem_image_of_mem _ hmem)
  have hrel2 : ∀ j ∈ (List.range (tileCoords tiles).length).filter
        (fun j => decide (j ∉ (pass1 centers (tileCoords tiles) (tiles.map Tile.pop) far).1)),
      (pass2f centers (tileCoords tiles) (tiles.map Tile.pop) far j).map (fun y => y.2)
        = (pass2fS centers tiles far j).map (fun y => y.2) := by
    intro j hj
    have hjlt : j < tiles.length := by
      have := List.mem_range.mp (List.mem_filter.mp hj).1
      rwa [tileCoords_length] at this
    unfold pass2f pass2fS
    cases roadOf centers (tileCoords tiles) far j <;>
      simp [lookupPop_keyAt tiles hkeys j hjlt]
  rw [hfast, hslow]
  unfold pass2 pass2S
  rw [← hlist, ← ha1]
  exact engStep_foldl_snd_congr _ _ _ hrel2 _ _ _

/-- Counterexample to C4 as stated: one road at `(2, 60)` and one tile
at `(2.0001, 60)`, threshold 8 m, longitude scale factor `1/2` (the
value of `cos(radians(avg_lat))` at the bounding box's mid-latitude of
60 degrees, to double precision within `1e-15`; the decision margins
here are two orders of magnitude wider).  The fast path measures
`0.00005` scaled degrees — within the `8/111000 ≈ 0.000072` degree
threshold — and assigns population 7; the fallback measures `0.0001` raw
degrees, rejects the pair in both passes, and leaves the road at 0. -/
theorem c4_fallback_cex :
    (get_density true (1 / 2) [(⟨none, some 2, none, none, some 60, none, none⟩ : NodeData)]
        [⟨"2.0001", "60", some (20001 / 10000), some 60, some 7⟩] (1 / 7200) true
        (some 8)).map (fun d => d.pop_density) = [some 7] ∧
      (get_density false (1 / 2) [(⟨none, some 2, none, none, some 60, none, none⟩ : NodeData)]
        [⟨"2.0001", "60", some (20001 / 10000), some 60, some 7⟩] (1 / 7200) true
        (some 8)).map (fun d => d.pop_density) = [some 0] :=
  ⟨by decide, by decide⟩

/-- Witness for C4 (amended) at a concrete input. -/
theorem c4_fallback_amended_witness :
    ([(⟨("1", "2"), 10, 1, 2⟩ : Tile)].map Tile.key).Nodup ∧
      (get_density_fast_engine [((1 : ℚ), (1 : ℚ))] [⟨("1", "2"), 10, 1, 2⟩]
          (some 100) 1).assign
        = (get_density_slow_engine [((1 : ℚ), (1 : ℚ))] [⟨("1", "2"), 10, 1, 2⟩]
            (some 100)).assign :=
  ⟨by decide, c4_fallback_amended [((1 : ℚ), (1 : ℚ))] [⟨("1", "2"), 10, 1, 2⟩]
    (some 100) (by decide)⟩

end PopDensity
